import Mathlib

/-!
Verification development for the leptos-image repository (image-derivative
cache).  Rust strings are modelled as lists of UTF-8 byte values (`Str`);
all operations of the source code that the claims mention (the serde_qs
wire codec, base64, path assembly, the derivative store, route discovery,
the lookup handler and the blur-placeholder generator) are embedded as
executable Lean functions over this representation.
-/

/-- A byte string: the UTF-8 bytes of a Rust `String` (each entry `< 256`). -/
abbrev Str := List Nat

/-- Bytes of an ASCII string literal (every character below 128, so the
UTF-8 encoding is the list of code points). Used only for ASCII literals. -/
def ascii (s : String) : Str := s.data.map Char.toNat

/-- All bytes of a byte string are genuine bytes. -/
def bytesWF (s : Str) : Prop := ∀ b ∈ s, b < 256

instance (s : Str) : Decidable (bytesWF s) := by
  unfold bytesWF; infer_instance

/-! ## Percent-encoding (model of `serde_qs` serialization character handling)

`serde_qs::to_string` percent-encodes every key part and value with the
set `NON_ALPHANUMERIC - {' ', '*', '-', '.', '_'}` of the
`percent_encoding` crate (non-ASCII bytes are always encoded), writes the
space as `+`, and uses uppercase hex digits.  Its parser percent-decodes
with `+` mapped back to space. -/

/-- ASCII alphanumeric test on a byte value. -/
def isAlnum (b : Nat) : Bool :=
  (65 ≤ b && b ≤ 90) || (97 ≤ b && b ≤ 122) || (48 ≤ b && b ≤ 57)

/-- Bytes the serde_qs serializer leaves unencoded: alphanumerics and
`*`, `-`, `.`, `_` (the removals from `NON_ALPHANUMERIC`). -/
def qsUnencoded (b : Nat) : Bool :=
  isAlnum b || b = 42 || b = 45 || b = 46 || b = 95

/-- Uppercase hexadecimal digit of a value below 16. -/
def hexDigit (n : Nat) : Nat := if n < 10 then 48 + n else 55 + n

/-- Value of a hexadecimal digit byte (the parser accepts both cases). -/
def hexVal (b : Nat) : Option Nat :=
  if 48 ≤ b && b ≤ 57 then some (b - 48)
  else if 65 ≤ b && b ≤ 70 then some (b - 55)
  else if 97 ≤ b && b ≤ 102 then some (b - 87)
  else none

/-- Model of serde_qs percent-encoding of one key part or value. -/
def percentEncode : Str → Str
  | [] => []
  | b :: rest =>
    (if qsUnencoded b then [b]
     else if b = 32 then [43]
     else [37, hexDigit (b / 16), hexDigit (b % 16)]) ++ percentEncode rest

/-- Model of serde_qs percent-decoding (strict mode: a malformed escape is
an error); `+` decodes to the space byte. -/
def percentDecode : Str → Option Str
  | [] => some []
  | b :: rest =>
    if b = 37 then
      match rest with
      | h :: l :: rest2 =>
        match hexVal h, hexVal l with
        | some hv, some lv => (percentDecode rest2).map (fun t => (hv * 16 + lv) :: t)
        | _, _ => none
      | _ => none
    else if b = 43 then (percentDecode rest).map (fun t => 32 :: t)
    else (percentDecode rest).map (fun t => b :: t)

/-! ## Splitting and joining byte strings

Models of Rust `str::split(char)` (which yields the maximal runs between
separator occurrences, including empty runs) and of joining path segments
with `/` (what collecting relative components into a `PathBuf` produces).
-/

/-- Model of Rust `s.split(c)`: list of chunks between occurrences of `c`. -/
def splitByte (c : Nat) : Str → List Str
  | [] => [[]]
  | b :: rest =>
    if b = c then [] :: splitByte c rest
    else
      match splitByte c rest with
      | [] => [[b]]
      | s :: ss => (b :: s) :: ss

/-- Model of splitting at the first occurrence of `c`:
(part before, part after); the whole string and `[]` if `c` is absent.
This is how a `key=value` pair is torn apart. -/
def splitFirst (c : Nat) : Str → Str × Str
  | [] => ([], [])
  | b :: rest =>
    if b = c then ([], rest)
    else
      let p := splitFirst c rest
      (b :: p.1, p.2)

/-! ## Decimal numerals (model of Rust integer `Display` and `parse`) -/

/-- Fuel-driven digit worker (structural recursion so that it reduces
definitionally; the fuel always exceeds the value, which each division
by ten keeps true). -/
def natDecAux : Nat → Nat → Str
  | 0, _ => []
  | fuel + 1, n =>
    if n < 10 then [48 + n] else natDecAux fuel (n / 10) ++ [48 + n % 10]

/-- Decimal digits (ASCII) of a natural number, most significant first:
model of formatting a Rust unsigned integer. -/
def natDec (n : Nat) : Str := natDecAux (n + 1) n

/-- Model of Rust `str::parse` for unsigned integers, restricted to plain
digit strings (what the serializer emits): folds decimal digits; fails on
an empty string or any non-digit. -/
def parseDigits (s : Str) : Option Nat :=
  if s = [] then none
  else
    s.foldl (fun acc b =>
      acc.bind fun a => if 48 ≤ b && b ≤ 57 then some (a * 10 + (b - 48)) else none)
      (some 0)

/-! ## Base64 (model of the `base64` crate `STANDARD` engine)

The `general_purpose::STANDARD` engine uses the `A-Za-z0-9+/` alphabet
with mandatory canonical `=` padding on encode, and on decode rejects
non-alphabet symbols, non-canonical padding, input length `% 4 ≠ 0` and
non-zero trailing bits. -/

/-- Alphabet character for a 6-bit value. -/
def b64Char (v : Nat) : Nat :=
  if v < 26 then 65 + v
  else if v < 52 then 97 + (v - 26)
  else if v < 62 then 48 + (v - 52)
  else if v = 62 then 43
  else 47

/-- Value of an alphabet character; `none` for anything else (including `=`). -/
def b64Val (c : Nat) : Option Nat :=
  if 65 ≤ c && c ≤ 90 then some (c - 65)
  else if 97 ≤ c && c ≤ 122 then some (c - 97 + 26)
  else if 48 ≤ c && c ≤ 57 then some (c - 48 + 52)
  else if c = 43 then some 62
  else if c = 47 then some 63
  else none

/-- Model of `STANDARD.encode`: canonical base64 with padding. -/
def base64E : Str → Str
  | [] => []
  | [b1] => [b64Char (b1 / 4), b64Char (b1 % 4 * 16), 61, 61]
  | [b1, b2] => [b64Char (b1 / 4), b64Char (b1 % 4 * 16 + b2 / 16),
                 b64Char (b2 % 16 * 4), 61]
  | b1 :: b2 :: b3 :: rest =>
    b64Char (b1 / 4) :: b64Char (b1 % 4 * 16 + b2 / 16) ::
    b64Char (b2 % 16 * 4 + b3 / 64) :: b64Char (b3 % 64) :: base64E rest

/-- Model of `STANDARD.decode`: strict canonical decoding; rejects input
whose length is not a multiple of four, bad symbols, interior or
non-canonical padding, and non-zero trailing bits. -/
def base64D : Str → Option Str
  | [] => some []
  | c1 :: c2 :: c3 :: c4 :: rest =>
    match b64Val c1, b64Val c2 with
    | some v1, some v2 =>
      if c3 = 61 then
        if c4 = 61 && rest.isEmpty && v2 % 16 = 0 then
          some [v1 * 4 + v2 / 16]
        else none
      else
        match b64Val c3 with
        | some v3 =>
          if c4 = 61 then
            if rest.isEmpty && v3 % 4 = 0 then
              some [v1 * 4 + v2 / 16, v2 % 16 * 16 + v3 / 4]
            else none
          else
            match b64Val c4 with
            | some v4 =>
              (base64D rest).map
                (fun t => (v1 * 4 + v2 / 16) :: (v2 % 16 * 16 + v3 / 4) ::
                          (v3 % 4 * 64 + v4) :: t)
            | none => none
        | none => none
    | _, _ => none
  | _ => none

/-! ## UTF-8 validity (model of `String::from_utf8(..).ok()`) -/

/-- UTF-8 continuation byte test. -/
def isCont (c : Nat) : Bool := 128 ≤ c && c ≤ 191

/-- Worker for UTF-8 validity, structured with a fuel argument (always
called with fuel at least the list length, which each step preserves
because at least one byte is consumed per unit of fuel). -/
def utf8ValidAux : Nat → Str → Bool
  | 0, s => s.isEmpty
  | _ + 1, [] => true
  | fuel + 1, b :: rest =>
    if b < 128 then utf8ValidAux fuel rest
    else if 194 ≤ b && b ≤ 223 then
      1 ≤ rest.length && isCont (rest.headD 256) && utf8ValidAux fuel (rest.drop 1)
    else if 224 ≤ b && b ≤ 239 then
      2 ≤ rest.length &&
      (if b = 224 then 160 ≤ rest.headD 256 && rest.headD 256 ≤ 191
       else if b = 237 then 128 ≤ rest.headD 256 && rest.headD 256 ≤ 159
       else isCont (rest.headD 256)) &&
      isCont ((rest.drop 1).headD 256) && utf8ValidAux fuel (rest.drop 2)
    else if 240 ≤ b && b ≤ 244 then
      3 ≤ rest.length &&
      (if b = 240 then 144 ≤ rest.headD 256 && rest.headD 256 ≤ 191
       else if b = 244 then 128 ≤ rest.headD 256 && rest.headD 256 ≤ 143
       else isCont (rest.headD 256)) &&
      isCont ((rest.drop 1).headD 256) && isCont ((rest.drop 2).headD 256) &&
      utf8ValidAux fuel (rest.drop 3)
    else false

/-- Standard UTF-8 validity of a byte sequence, as checked by Rust's
`String::from_utf8` (well-formed sequence lengths, no over-long forms,
no surrogates, max `U+10FFFF`). -/
def utf8Valid (s : Str) : Bool := utf8ValidAux s.length s

/-! ## Path assembly (model of `path_from_segments` and `PathBuf` operations)

`path_from_segments` trims `/` from both ends of every segment, drops the
segments that become empty, and collects the rest into a `PathBuf`; for
the resulting (always relative) path, the `PathBuf` string is the
segments joined with `/`.  `set_extension` rewrites the file name after
the last `/`: it replaces everything after the final `.` of the file name
(if the file name has a dot beyond position zero) or appends a dotted
extension, and does nothing when the path has no file name (empty or
`..` final component). -/

/-- Strip leading `/` bytes: model of `trim_start_matches('/')`. -/
def trimStartSlash (s : Str) : Str := s.dropWhile (fun b => b = 47)

/-- Strip `/` from both ends: `trim_start_matches('/')` then
`trim_end_matches('/')`. -/
def trimSlashes (s : Str) : Str :=
  List.rdropWhile (fun b => b = 47) (trimStartSlash s)

/-- Model of `path_from_segments`: trim each segment, drop empties,
collect into a relative path joined by `/`. -/
def pathFromSegments (segs : List Str) : Str :=
  List.intercalate [47] (((segs.map trimSlashes).filter (fun s => s ≠ [])))

/-- Replace or append the extension of a file name (the component after
the last `/`), following `Path::set_extension`: if the name contains a
`.` past position zero (`findIdx` on the reversal locates the last dot;
it must not be the leading byte) the part after the last `.` is
replaced, else `.ext` is appended. -/
def fnameSetExt (fname ext : Str) : Str :=
  if fname.reverse.findIdx (fun b => b = 46) + 1 < fname.length then
    (fname.take (fname.length - 1 - fname.reverse.findIdx (fun b => b = 46))) ++
      46 :: ext
  else fname ++ 46 :: ext

/-- Model of `PathBuf::set_extension` on the string form of a relative
path: rewrites the final `/`-component; no-op when that component is
empty or `..` (no file name). -/
def setExtension (p ext : Str) : Str :=
  match (splitByte 47 p).getLast? with
  | none => p
  | some fname =>
    if fname = [] || fname = [46, 46] then p
    else List.intercalate [47] ((splitByte 47 p).dropLast ++ [fnameSetExt fname ext])

/-! ## The cache-key data model (`CachedImage`, src/optimizer.rs)

`CachedImage { src, option }` with
`CachedImageOption = Resize { w, h, q } | Blur { w, h, sw, sh, s }`
(the serde field renames give the short wire tags).  Numeric fields are
`u32`/`u8`; they are modelled as `Nat` with explicit range bounds in the
well-formedness predicate. -/

/-- Parameters of the `Resize` operation (`u32`, `u32`, `u8`). -/
structure Resize where
  width : Nat
  height : Nat
  quality : Nat
deriving DecidableEq

/-- Parameters of the `Blur` operation (four `u32` fields and a `u8`). -/
structure Blur where
  width : Nat
  height : Nat
  svg_width : Nat
  svg_height : Nat
  sigma : Nat
deriving DecidableEq

/-- The operation variant, wire-tagged `r` / `b`. -/
inductive CachedImageOption where
  | resize (z : Resize)
  | blur (z : Blur)
deriving DecidableEq

/-- The cache key: source path and operation. -/
structure CachedImage where
  src : Str
  option : CachedImageOption
deriving DecidableEq

/-- Rust-type range bounds of the numeric fields. -/
def CachedImageOption.rangesOK : CachedImageOption → Prop
  | .resize z => z.width < 2 ^ 32 ∧ z.height < 2 ^ 32 ∧ z.quality < 256
  | .blur z => z.width < 2 ^ 32 ∧ z.height < 2 ^ 32 ∧ z.svg_width < 2 ^ 32 ∧
      z.svg_height < 2 ^ 32 ∧ z.sigma < 256

instance (o : CachedImageOption) : Decidable o.rangesOK := by
  cases o <;> · unfold CachedImageOption.rangesOK; infer_instance

/-- Last `/`-separated component of a byte string. -/
def lastChunk (s : Str) : Str := ((splitByte 47 s).getLast?).getD []

/-- A valid transform request: the source is a genuine UTF-8 string that
denotes a nonempty relative path (something remains after trimming `/`,
and the final path component is a real file name, not `.` or `..`), and
the numeric fields fit their Rust types. -/
def CachedImage.wf (r : CachedImage) : Prop :=
  bytesWF r.src ∧ utf8Valid r.src = true ∧ trimSlashes r.src ≠ [] ∧
  lastChunk (trimSlashes r.src) ≠ [46] ∧ lastChunk (trimSlashes r.src) ≠ [46, 46] ∧
  r.option.rangesOK

instance (r : CachedImage) : Decidable r.wf := by
  unfold CachedImage.wf; infer_instance

/-! ## The wire codec (model of `serde_qs::to_string` / `from_str` for
`CachedImage`, and `get_url_encoded` / `from_url_encoded`)

Serialization writes the fields in declaration order with the renamed
short tags, producing `key=value` pairs joined by `&`; nested keys use
literal brackets around percent-encoded parts.  Deserialization splits
on `&` and on the first `=`, percent-decodes, requires `src` plus a
complete single variant (unknown keys are ignored, two variants or a
missing field are errors), and parses the numerals with their range
checks. -/

/-- The `key=value` pairs serde_qs emits for a `CachedImage`, in field
declaration order. -/
def qsRawPairs (r : CachedImage) : List (Str × Str) :=
  match r.option with
  | .resize z =>
    [(ascii "src", percentEncode r.src),
     (ascii "option[r][w]", natDec z.width),
     (ascii "option[r][h]", natDec z.height),
     (ascii "option[r][q]", natDec z.quality)]
  | .blur z =>
    [(ascii "src", percentEncode r.src),
     (ascii "option[b][w]", natDec z.width),
     (ascii "option[b][h]", natDec z.height),
     (ascii "option[b][sw]", natDec z.svg_width),
     (ascii "option[b][sh]", natDec z.svg_height),
     (ascii "option[b][s]", natDec z.sigma)]

/-- Model of `serde_qs::to_string(&cache_image)`. -/
def qsEncode (r : CachedImage) : Str :=
  List.intercalate [38] ((qsRawPairs r).map (fun p => p.1 ++ 61 :: p.2))

/-- Does one byte string begin with another? -/
def listStartsWith : Str → Str → Bool
  | [], _ => true
  | _ :: _, [] => false
  | p :: ps, b :: bs => p == b && listStartsWith ps bs

/-- Parse a `u32` field value: decimal digits within range. -/
def parseU32 (v : Str) : Option Nat :=
  (parseDigits v).bind (fun n => if n < 2 ^ 32 then some n else none)

/-- Parse a `u8` field value: decimal digits within range. -/
def parseU8 (v : Str) : Option Nat :=
  (parseDigits v).bind (fun n => if n < 256 then some n else none)

/-- Deserialize the `Resize` variant fields from the key/value lookup. -/
def parseResize (getV : Str → Option Str) : Option CachedImageOption :=
  (getV (ascii "option[r][w]")).bind fun wS =>
  (getV (ascii "option[r][h]")).bind fun hS =>
  (getV (ascii "option[r][q]")).bind fun qS =>
  (parseU32 wS).bind fun w =>
  (parseU32 hS).bind fun h =>
  (parseU8 qS).map fun q => CachedImageOption.resize ⟨w, h, q⟩

/-- Deserialize the `Blur` variant fields from the key/value lookup. -/
def parseBlur (getV : Str → Option Str) : Option CachedImageOption :=
  (getV (ascii "option[b][w]")).bind fun wS =>
  (getV (ascii "option[b][h]")).bind fun hS =>
  (getV (ascii "option[b][sw]")).bind fun swS =>
  (getV (ascii "option[b][sh]")).bind fun shS =>
  (getV (ascii "option[b][s]")).bind fun sS =>
  (parseU32 wS).bind fun w =>
  (parseU32 hS).bind fun h =>
  (parseU32 swS).bind fun sw =>
  (parseU32 shS).bind fun sh =>
  (parseU8 sS).map fun s => CachedImageOption.blur ⟨w, h, sw, sh, s⟩

/-- Model of `serde_qs::from_str::<CachedImage>`: split the query on `&`
and each pair at the first `=`, percent-decode, require the `src` field
(a UTF-8 string) and exactly one complete operation variant. -/
def qsParse (s : Str) : Option CachedImage :=
  let pairs := (splitByte 38 s).map (splitFirst 61)
  let getV : Str → Option Str := fun k =>
    ((pairs.find? (fun p => p.1 == k)).map Prod.snd).bind percentDecode
  (getV (ascii "src")).bind fun srcBytes =>
  if utf8Valid srcBytes then
    let hasR := pairs.any (fun p => listStartsWith (ascii "option[r]") p.1)
    let hasB := pairs.any (fun p => listStartsWith (ascii "option[b]") p.1)
    if hasR && hasB then none
    else if hasR then (parseResize getV).map (fun o => ⟨srcBytes, o⟩)
    else if hasB then (parseBlur getV).map (fun o => ⟨srcBytes, o⟩)
    else none
  else none

/-- Model of `CachedImage::get_url_encoded`: handler path, `?`, then the
serde_qs encoding of the request. -/
def getUrlEncoded (handlerPath : Str) (r : CachedImage) : Str :=
  handlerPath ++ 63 :: qsEncode r

/-- Model of `CachedImage::from_url_encoded`: take the last
`?`-separated piece that is not the literal `"?"` (the whole string if
splitting yields nothing), and serde_qs-parse it. -/
def fromUrlEncoded (url : Str) : Option CachedImage :=
  qsParse ((((splitByte 63 url).filter (fun s => !(s == [63]))).getLast?).getD url)

/-! ## The filesystem path codec (`get_file_path` / `from_file_path`) -/

/-- Extension chosen by `get_file_path`: `webp` for Resize, `svg` for Blur. -/
def cacheExt : CachedImageOption → Str
  | .resize _ => ascii "webp"
  | .blur _ => ascii "svg"

/-- Model of `CachedImage::get_file_path`: base64 of the serde_qs wire
form as a directory segment between `cache/image` and the source path,
then `set_extension`. -/
def getFilePath (r : CachedImage) : Str :=
  let encode := base64E (qsEncode r)
  let path := pathFromSegments [ascii "cache/image", encode, r.src]
  setExtension path (cacheExt r.option)

/-- Model of `Iterator::find_map`: first `some` result, in order. -/
def findMap {α β : Type} (f : α → Option β) : List α → Option β
  | [] => none
  | a :: rest =>
    match f a with
    | some b => some b
    | none => findMap f rest

/-- Model of `CachedImage::from_file_path`: split the path on `/`, keep
the segments that base64-decode to UTF-8 text, and serde_qs-parse the
first that succeeds (`filter_map` then `find_map` fused into one
`find_map` over the composed partial function). -/
def fromFilePath (p : Str) : Option CachedImage :=
  findMap (fun seg =>
    ((base64D seg).bind (fun bs => if utf8Valid bs then some bs else none)).bind
      qsParse) (splitByte 47 p)

/-- Model of `get_file_path_from_root` (also the `save_path` computed by
`create_image`): the configured root joined with the relative cache path. -/
def getFilePathFromRoot (root : Str) (r : CachedImage) : Str :=
  pathFromSegments [root, getFilePath r]

/-- The absolute source path computed by `create_image`. -/
def absoluteSrcPath (root : Str) (r : CachedImage) : Str :=
  pathFromSegments [root, r.src]

/-! ## The derivative store (model of `ImageOptimizer::create_image`,
`create_optimized_image` and `create_image_blur`, src/optimizer.rs)

The external image and WebP libraries are modelled as an abstract
`ImageLib` of pure functions (the embedding makes no other assumption
about them); the filesystem is a map from path strings to file bytes;
every filesystem mutation and semaphore interaction is also recorded in
an event trace so that claims about ordering, permits and temp files can
be stated. -/

/-- Error type of image creation (`CreateImageError`). -/
inductive CreateImageError where
  | imageError
  | joinError
  | ioError
deriving DecidableEq

/-- The pure external image operations used by the transform engine:
decoding a raster, the two resize filters, and WebP encoding at a
quality setting. -/
structure ImageLib where
  Img : Type
  decode : Str → Option Img
  resizeCatmull : Img → Nat → Nat → Img
  resizeNearest : Img → Nat → Nat → Img
  webpEncode : Img → Nat → Str

/-- Filesystem tier: contents by path. -/
abbrev Fs : Type := Str → Option Str

/-- Write a file (model of `std::fs::write`). -/
def fsWrite (fs : Fs) (p bytes : Str) : Fs :=
  fun q => if q = p then some bytes else fs q

/-- Parent directory of a path (for `create_nested_if_needed`). -/
def parentDir (p : Str) : Str :=
  List.intercalate [47] ((splitByte 47 p).dropLast)

/-- Observable effects of the store. -/
inductive FsEvent where
  | createDirAll (dir : Str)
  | write (path bytes : Str)
  | rename (src dst : Str)
deriving DecidableEq

/-- The SVG document produced by `create_image_blur`: the exact
`format!` template with the svg dimensions, the blur sigma and the data
URI interpolated. -/
def blurSvg (svg_width svg_height sigma : Nat) (uri : Str) : Str :=
  ascii "\n<svg xmlns=\"http://www.w3.org/2000/svg\" xmlns:xlink=\"http://www.w3.org/1999/xlink\" width=\"100%\" height=\"100%\" viewBox=\"0 0 " ++
  natDec svg_width ++ ascii " " ++ natDec svg_height ++
  ascii "\" preserveAspectRatio=\"none\">\n    <filter id=\"a\" filterUnits=\"userSpaceOnUse\" color-interpolation-filters=\"sRGB\"> \n        <feGaussianBlur stdDeviation=\"" ++
  natDec sigma ++
  ascii "\" edgeMode=\"duplicate\"/> \n        <feComponentTransfer>\n            <feFuncA type=\"discrete\" tableValues=\"1 1\"/> \n        </feComponentTransfer> \n    </filter> \n    <image filter=\"url(#a)\" x=\"0\" y=\"0\" height=\"100%\" width=\"100%\" href=\"" ++
  uri ++ ascii "\"/>\n</svg>\n"

/-- Model of `create_image_blur`: open and decode the source (its bytes
are the file content at the source path, `none` when absent or
undecodable), downscale with the Nearest filter to the tiny raster
size, WebP-encode at the fixed quality 80, base64 the payload into a
data URI and wrap it in the SVG template. -/
def createImageBlur (lib : ImageLib) (srcFile : Option Str) (blur : Blur) :
    Except CreateImageError Str :=
  match srcFile with
  | none => .error .imageError
  | some bytes =>
    match lib.decode bytes with
    | none => .error .imageError
    | some img =>
      let webp := lib.webpEncode (lib.resizeNearest img blur.width blur.height) 80
      let uri := ascii "data:image/webp;base64," ++ base64E webp
      .ok (blurSvg blur.svg_width blur.svg_height blur.sigma uri)

/-- Model of `create_optimized_image`: run the transform fully in
memory, then create parent directories and write the result with one
direct `std::fs::write` to the save path.  Returns the new filesystem,
the result, and the emitted filesystem events. -/
def create_optimized_image (lib : ImageLib) (config : CachedImageOption)
    (fs : Fs) (sourcePath savePath : Str) :
    Fs × Except CreateImageError Unit × List FsEvent :=
  match config with
  | .resize z =>
    match (fs sourcePath).bind lib.decode with
    | none => (fs, .error .imageError, [])
    | some img =>
      let webp := lib.webpEncode (lib.resizeCatmull img z.width z.height) z.quality
      (fsWrite fs savePath webp, .ok (),
        [.createDirAll (parentDir savePath), .write savePath webp])
  | .blur z =>
    match createImageBlur lib (fs sourcePath) z with
    | .error e => (fs, .error e, [])
    | .ok svg =>
      (fsWrite fs savePath svg, .ok (),
        [.createDirAll (parentDir savePath), .write savePath svg])

/-- Store-level events: semaphore interactions and filesystem effects. -/
inductive StoreEvent where
  | semAcquire
  | semRelease
  | fsEvent (e : FsEvent)
deriving DecidableEq

/-- The optimizer configuration (`ImageOptimizer::new`). -/
structure ImageOptimizer where
  api_handler_path : Str
  root_file_path : Str
  parallelism : Nat

/-- Model of `ImageOptimizer::create_image`: derive the save path and
the absolute source path under the root; if the artifact already exists
return `Ok(false)` at once (no permit, no transform); otherwise acquire
a semaphore permit — which the source binds to `_`, dropping (releasing)
it immediately — and run `create_optimized_image` on the blocking pool,
returning `Ok(true)` on success. -/
def ImageOptimizer.create_image (opt : ImageOptimizer) (lib : ImageLib)
    (fs : Fs) (r : CachedImage) :
    Fs × Except CreateImageError Bool × List StoreEvent :=
  if (fs (pathFromSegments [opt.root_file_path, getFilePath r])).isSome then
    (fs, .ok false, [])
  else
    match create_optimized_image lib r.option fs
        (pathFromSegments [opt.root_file_path, r.src])
        (pathFromSegments [opt.root_file_path, getFilePath r]) with
    | (fs2, .error e, evs) =>
      (fs2, .error e, .semAcquire :: .semRelease :: evs.map .fsEvent)
    | (fs2, .ok _, evs) =>
      (fs2, .ok true, .semAcquire :: .semRelease :: evs.map .fsEvent)

/-! ## Concurrency model of `create_image` generation (for the
semaphore claim)

Each logical task executing the generation branch of `create_image`
passes through the phases below, in source order: the existence check,
`semaphore.acquire()` (needs a free permit), the immediate drop of the
binding `let _ = ...` (which releases the permit), spawning the blocking
transform, and completion.  The scheduler interleaves tasks freely; the
permit count is the shared state. -/

/-- Phase of one task in `create_image`. -/
inductive TaskPhase where
  | ready
  | checked
  | holding
  | released
  | transforming
  | done
deriving DecidableEq

/-- Scheduler state: free permits and the phase of every task. -/
structure SemState where
  permits : Nat
  tasks : List TaskPhase
deriving DecidableEq

/-- One scheduler step of some task `i`, following the statement order
of `create_image`'s generation branch. -/
inductive SemStep : SemState → SemState → Prop where
  | check (p : Nat) (ts : List TaskPhase) (i : Nat)
      (h : ts.get? i = some .ready) :
      SemStep ⟨p, ts⟩ ⟨p, ts.set i .checked⟩
  | acquire (p : Nat) (ts : List TaskPhase) (i : Nat)
      (h : ts.get? i = some .checked) (hp : 0 < p) :
      SemStep ⟨p, ts⟩ ⟨p - 1, ts.set i .holding⟩
  | dropPermit (p : Nat) (ts : List TaskPhase) (i : Nat)
      (h : ts.get? i = some .holding) :
      SemStep ⟨p, ts⟩ ⟨p + 1, ts.set i .released⟩
  | spawn (p : Nat) (ts : List TaskPhase) (i : Nat)
      (h : ts.get? i = some .released) :
      SemStep ⟨p, ts⟩ ⟨p, ts.set i .transforming⟩
  | finish (p : Nat) (ts : List TaskPhase) (i : Nat)
      (h : ts.get? i = some .transforming) :
      SemStep ⟨p, ts⟩ ⟨p, ts.set i .done⟩

/-- Reachability under scheduler interleavings. -/
def SemReachable : SemState → SemState → Prop :=
  Relation.ReflTransGen SemStep

/-- Number of transforms currently running. -/
def runningTransforms (s : SemState) : Nat :=
  s.tasks.count TaskPhase.transforming

/-! ## Route image discovery (model of `find_app_images_from_paths`,
src/introspect.rs; the src/cache.rs variant has the same shape)

For each route path the app is rendered once at
`http://leptos.dev{path}` with a fresh collection context; the render
pass is the external collaborator, modelled as a function from the
routed URL to the list of image requests the pass pushes into the
context.  The per-route lists are flattened in order; the source applies
no deduplication. -/

/-- Model of `find_app_images_from_paths`. -/
def find_app_images_from_paths (render : Str → List CachedImage)
    (paths : List Str) : List CachedImage :=
  ((paths.map (fun path => ascii "http://leptos.dev" ++ path)).map render).flatten

/-! ## The lookup handler (model of `check_cache_image` and
`image_cache_handler`, src/routes.rs)

`check_cache_image` decodes the request URI; a decode failure yields
`Ok(None)`; otherwise the store's create call runs and its error
propagates.  `image_cache_handler` maps `Ok(Some(file))` to a 200 file
response, `Ok(None)` to status 404 ("Invalid Image.") and `Err` to
status 500 ("Error creating image").  The store call is abstracted as a
function argument. -/

/-- Model of `check_cache_image`: `Ok (some uri)` is the rewritten file
URI (`"/" + file_path`). -/
def check_cache_image
    (createFn : CachedImage → Except CreateImageError (Str × Bool))
    (uri : Str) : Except CreateImageError (Option Str) :=
  match fromUrlEncoded uri with
  | none => .ok none
  | some img =>
    match createFn img with
    | .error e => .error e
    | .ok (filePath, _created) => .ok (some (47 :: filePath))

/-- Model of `image_cache_handler`, reduced to the response status. -/
def image_cache_handler
    (createFn : CachedImage → Except CreateImageError (Str × Bool))
    (uri : Str) : Nat :=
  match check_cache_image createFn uri with
  | .ok (some _) => 200
  | .ok none => 404
  | .error _ => 500

/-! ## Shared concrete instances for witnesses and counterexamples -/

/-- A trivial deterministic image library (decoding always succeeds,
resizing is the identity, WebP encoding is a fixed byte). -/
def libUnit : ImageLib where
  Img := Unit
  decode := fun _ => some ()
  resizeCatmull := fun i _ _ => i
  resizeNearest := fun i _ _ => i
  webpEncode := fun _ _ => [42]

/-- The repository's own test request: `test.jpg` resized 100x100 q75. -/
def rTest : CachedImage := ⟨ascii "test.jpg", .resize ⟨100, 100, 75⟩⟩

/-- The spec's Scenario A request: `cat.png` resized 100x100 q75. -/
def rCat : CachedImage := ⟨ascii "cat.png", .resize ⟨100, 100, 75⟩⟩

/-- The same source with a leading slash. -/
def rCatSlash : CachedImage := ⟨ascii "/cat.png", .resize ⟨100, 100, 75⟩⟩

/-- A 200-byte source name, long enough that the base64 wire-key segment
of the derived path exceeds 255 bytes. -/
def longSrc : Str :=
  ascii "aaaaaaaaaaaaaaaaaaaaaaaaaaaaaaaaaaaaaaaaaaaaaaaaaaaaaaaaaaaaaaaaaaaaaaaaaaaaaaaaaaaaaaaaaaaaaaaaaaaaaaaaaaaaaaaaaaaaaaaaaaaaaaaaaaaaaaaaaaaaaaaaaaaaaaaaaaaaaaaaaaaaaaaaaaaaaaaaaaaaaaaaaaaaaaaa.png"

/-- The over-long request for the path-length claim. -/
def rLong : CachedImage := ⟨longSrc, .resize ⟨100, 100, 75⟩⟩

/-- A filesystem holding one source image under the root `root`. -/
def fsDemo : Fs := fun p => if p = ascii "root/cat.png" then some [9] else none

/-- An empty filesystem. -/
def fsEmpty : Fs := fun _ => none

/-- The demo optimizer: handler at `/cache/image`, root `root`. -/
def optDemo : ImageOptimizer := ⟨ascii "/cache/image", ascii "root", 1⟩

/-- The three distinct images of the discovery scenario. -/
def imgA : CachedImage := ⟨ascii "a.png", .resize ⟨1, 1, 1⟩⟩

/-- Second scenario image. -/
def imgB : CachedImage := ⟨ascii "b.png", .resize ⟨1, 1, 1⟩⟩

/-- Third scenario image. -/
def imgC : CachedImage := ⟨ascii "c.png", .resize ⟨1, 1, 1⟩⟩

/-- The scenario's render collaborator: the root route renders one of
the gallery's three images, the gallery route renders all three. -/
def render7 : Str → List CachedImage := fun u =>
  if u = ascii "http://leptos.dev/" then [imgA]
  else if u = ascii "http://leptos.dev/gallery" then [imgA, imgB, imgC]
  else []

/-- Unfolding equation: a non-escape, non-plus byte decodes to itself. -/
theorem percentDecode_plain (b : Nat) (rest : Str) (h37 : b ≠ 37) (h43 : b ≠ 43) :
    percentDecode (b :: rest) = (percentDecode rest).map (fun t => b :: t) := by
  conv_lhs => rw [percentDecode.eq_def]
  simp [h37, h43]

/-- Unfolding equation: `+` decodes to a space byte. -/
theorem percentDecode_plus (rest : Str) :
    percentDecode (43 :: rest) = (percentDecode rest).map (fun t => 32 :: t) := by
  conv_lhs => rw [percentDecode.eq_def]
  simp

/-- Unfolding equation: a percent escape decodes via the two hex digits. -/
theorem percentDecode_escape (h l : Nat) (rest : Str) (hv lv : Nat)
    (hh : hexVal h = some hv) (hl : hexVal l = some lv) :
    percentDecode (37 :: h :: l :: rest) =
      (percentDecode rest).map (fun t => (hv * 16 + lv) :: t) := by
  conv_lhs => rw [percentDecode.eq_def]
  simp [hh, hl]

/-- Characters emitted by the percent-encoder are ASCII (at most `z`) and
are none of `?`, `&`, `=`, `/` — the delimiters the decoders split on. -/
theorem percentEncode_safe (s : Str) (h : bytesWF s) :
    ∀ c ∈ percentEncode s, c ≤ 122 ∧ c ≠ 63 ∧ c ≠ 38 ∧ c ≠ 61 ∧ c ≠ 47 := by
  induction s with
  | nil => intro c hc; simp [percentEncode] at hc
  | cons b rest ih =>
    have hb : b < 256 := h b (List.mem_cons_self b rest)
    have hrest : bytesWF rest := fun x hx => h x (List.mem_cons_of_mem b hx)
    intro c hc
    simp only [percentEncode, List.mem_append] at hc
    rcases hc with hc | hc
    · have hd : ∀ n, n < 16 → hexDigit n ≤ 122 ∧ hexDigit n ≠ 63 ∧
          hexDigit n ≠ 38 ∧ hexDigit n ≠ 61 ∧ hexDigit n ≠ 47 := by decide
      split at hc
      · rename_i hun
        simp only [List.mem_singleton] at hc
        subst hc
        simp only [qsUnencoded, isAlnum, Bool.or_eq_true, Bool.and_eq_true,
          decide_eq_true_eq] at hun
        omega
      · split at hc
        · simp only [List.mem_singleton] at hc; omega
        · simp only [List.mem_cons, List.not_mem_nil, or_false] at hc
          rcases hc with hc | hc | hc
          · omega
          · subst hc; exact hd _ (by omega)
          · subst hc; exact hd _ (by omega)
    · exact ih hrest c hc

/-- Percent-decoding inverts percent-encoding on genuine byte strings. -/
theorem percentDecode_percentEncode (s : Str) (h : bytesWF s) :
    percentDecode (percentEncode s) = some s := by
  induction s with
  | nil => rfl
  | cons b rest ih =>
    have hb : b < 256 := h b (List.mem_cons_self b rest)
    have hrest : bytesWF rest := fun x hx => h x (List.mem_cons_of_mem b hx)
    have ihr := ih hrest
    by_cases hun : qsUnencoded b = true
    · have hb37 : b ≠ 37 := by
        intro hEq; subst hEq; simp [qsUnencoded, isAlnum] at hun
      have hb43 : b ≠ 43 := by
        intro hEq; subst hEq; simp [qsUnencoded, isAlnum] at hun
      simp [percentEncode, hun, percentDecode_plain b _ hb37 hb43, ihr]
    · by_cases h32 : b = 32
      · subst h32
        simp [percentEncode, hun, percentDecode_plus, ihr]
      · have hdig : ∀ n, n < 16 → hexVal (hexDigit n) = some n := by decide
        have h1 : hexVal (hexDigit (b / 16)) = some (b / 16) :=
          hdig _ (by omega)
        have h2 : hexVal (hexDigit (b % 16)) = some (b % 16) :=
          hdig _ (by omega)
        have hrec : b / 16 * 16 + b % 16 = b := by omega
        simp [percentEncode, hun, h32, percentDecode_escape _ _ _ _ _ h1 h2, ihr, hrec]

theorem splitByte_ne_nil (c : Nat) (s : Str) : splitByte c s ≠ [] := by
  induction s with
  | nil => simp [splitByte]
  | cons b rest ih =>
    simp only [splitByte]
    split
    · simp
    · split
      · simp
      · simp

theorem splitByte_not_mem (c : Nat) (s : Str) (h : c ∉ s) :
    splitByte c s = [s] := by
  induction s with
  | nil => rfl
  | cons b rest ih =>
    have hb : b ≠ c := fun hEq => h (hEq ▸ List.mem_cons_self b rest)
    have hr : c ∉ rest := fun hc => h (List.mem_cons_of_mem b hc)
    simp [splitByte, hb, ih hr]

theorem splitByte_append (c : Nat) (xs ys : Str) (h : c ∉ xs) :
    splitByte c (xs ++ c :: ys) = xs :: splitByte c ys := by
  induction xs with
  | nil => simp [splitByte]
  | cons b rest ih =>
    have hb : b ≠ c := fun hEq => h (hEq ▸ List.mem_cons_self b rest)
    have hr : c ∉ rest := fun hc => h (List.mem_cons_of_mem b hc)
    simp [splitByte, hb, ih hr]

/-- Chunks produced by `splitByte` never contain the separator. -/
theorem splitByte_chunks_not_mem (c : Nat) (s : Str) :
    ∀ chunk ∈ splitByte c s, c ∉ chunk := by
  induction s with
  | nil => intro chunk hc; simp [splitByte] at hc; simp [hc]
  | cons b rest ih =>
    intro chunk hc
    simp only [splitByte] at hc
    split at hc
    · rcases List.mem_cons.mp hc with h | h
      · simp [h]
      · exact ih chunk h
    · rename_i hb
      rcases hsp : splitByte c rest with _ | ⟨s0, ss⟩
      · exact absurd hsp (splitByte_ne_nil c rest)
      · rw [hsp] at hc
        rcases List.mem_cons.mp hc with h | h
        · subst h
          intro hmem
          rcases List.mem_cons.mp hmem with h' | h'
          · exact hb h'.symm
          · exact ih s0 (hsp ▸ List.mem_cons_self s0 ss) h'
        · exact ih chunk (hsp ▸ List.mem_cons_of_mem s0 h)

/-- Splitting an intercalation by the separator recovers the chunks,
provided no chunk contains the separator. -/
theorem splitByte_intercalate (c : Nat) (chunks : List Str)
    (h : ∀ chunk ∈ chunks, c ∉ chunk) (hne : chunks ≠ []) :
    splitByte c (List.intercalate [c] chunks) = chunks := by
  induction chunks with
  | nil => exact absurd rfl hne
  | cons s ss ih =>
    rcases ss with _ | ⟨t, ts⟩
    · simp [List.intercalate]
      exact splitByte_not_mem c s (h s (List.mem_cons_self s []))
    · have hs : c ∉ s := h s (List.mem_cons_self s _)
      have hrest : ∀ chunk ∈ t :: ts, c ∉ chunk :=
        fun chunk hc => h chunk (List.mem_cons_of_mem s hc)
      have : List.intercalate [c] (s :: t :: ts) =
          s ++ c :: List.intercalate [c] (t :: ts) := by
        simp [List.intercalate, List.intersperse]
      rw [this, splitByte_append c s _ hs, ih hrest (by simp)]

theorem splitFirst_append (c : Nat) (k v : Str) (h : c ∉ k) :
    splitFirst c (k ++ c :: v) = (k, v) := by
  induction k with
  | nil => simp [splitFirst]
  | cons b rest ih =>
    have hb : b ≠ c := fun hEq => h (hEq ▸ List.mem_cons_self b rest)
    have hr : c ∉ rest := fun hc => h (List.mem_cons_of_mem b hc)
    simp [splitFirst, hb, ih hr]

/-- The worker is fuel-independent once the fuel exceeds the value. -/
theorem natDecAux_congr : ∀ f1 n, n < f1 → ∀ f2, n < f2 →
    natDecAux f1 n = natDecAux f2 n := by
  intro f1
  induction f1 with
  | zero => intro n hn; omega
  | succ f1 ih =>
    intro n hn f2 hf2
    rcases f2 with _ | f2
    · omega
    · by_cases h10 : n < 10
      · simp [natDecAux, h10]
      · simp only [natDecAux, h10, if_false]
        rw [ih (n / 10) (by omega) f2 (by omega)]

/-- The usual recursive unfolding of `natDec`. -/
theorem natDec_unfold (n : Nat) :
    natDec n = if n < 10 then [48 + n] else natDec (n / 10) ++ [48 + n % 10] := by
  by_cases h10 : n < 10
  · simp [natDec, natDecAux, h10]
  · rw [if_neg h10]
    show natDecAux (n + 1) n = natDecAux (n / 10 + 1) (n / 10) ++ [48 + n % 10]
    rw [show natDecAux (n + 1) n = natDecAux n (n / 10) ++ [48 + n % 10] by
      simp [natDecAux, h10]]
    rw [natDecAux_congr n (n / 10) (by omega) (n / 10 + 1) (by omega)]

theorem natDec_digits (n : Nat) : ∀ b ∈ natDec n, 48 ≤ b ∧ b ≤ 57 := by
  induction n using Nat.strong_induction_on with
  | _ n ih =>
    intro b hb
    rw [natDec_unfold] at hb
    split at hb
    · simp only [List.mem_singleton] at hb; omega
    · rename_i h10
      rcases List.mem_append.mp hb with h | h
      · exact ih (n / 10) (Nat.div_lt_self (by omega) (by omega)) b h
      · simp only [List.mem_singleton] at h
        have : n % 10 < 10 := Nat.mod_lt _ (by omega)
        omega

theorem natDec_ne_nil (n : Nat) : natDec n ≠ [] := by
  rw [natDec_unfold]
  split
  · simp
  · simp

theorem parseDigits_natDec (n : Nat) : parseDigits (natDec n) = some n := by
  have key : ∀ m, ∀ a : Nat,
      (natDec m).foldl (fun acc b =>
        acc.bind fun x => if 48 ≤ b && b ≤ 57 then some (x * 10 + (b - 48)) else none)
        (some a) = some (a * 10 ^ (natDec m).length + m) := by
    intro m
    induction m using Nat.strong_induction_on with
    | _ m ih =>
      intro a
      rw [natDec_unfold]
      split
      · rename_i h10
        have h1 : (48:Nat) ≤ 48 + m := by omega
        have h2 : 48 + m ≤ 57 := by omega
        simp [h1, h2]
      · rename_i h10
        rw [List.foldl_append]
        rw [ih (m / 10) (Nat.div_lt_self (by omega) (by omega)) a]
        have hm : m % 10 < 10 := Nat.mod_lt _ (by omega)
        have h1 : (48:Nat) ≤ 48 + m % 10 := by omega
        have h2 : 48 + m % 10 ≤ 57 := by omega
        simp only [List.foldl_cons, List.foldl_nil, Option.some_bind]
        rw [if_pos (by simp only [Bool.and_eq_true, decide_eq_true_eq]; omega)]
        congr 1
        have hsub : 48 + m % 10 - 48 = m % 10 := by omega
        rw [hsub, List.length_append, List.length_singleton, pow_succ]
        have key2 : (a * 10 ^ (natDec (m / 10)).length + m / 10) * 10 + m % 10 =
            a * (10 ^ (natDec (m / 10)).length * 10) + (m / 10 * 10 + m % 10) := by ring
        rw [key2]
        congr 1
        omega
  rw [parseDigits, if_neg (natDec_ne_nil n), key n 0]
  simp

theorem b64Val_b64Char : ∀ v, v < 64 → b64Val (b64Char v) = some v := by decide

theorem b64Char_ne_61 : ∀ v, v < 64 → b64Char v ≠ 61 := by decide

/-- Decoding inverts encoding. -/
theorem base64D_base64E (s : Str) (h : bytesWF s) :
    base64D (base64E s) = some s := by
  induction s using base64E.induct with
  | case1 => rfl
  | case2 b1 =>
    have hb1 : b1 < 256 := h b1 (by simp)
    have h1 : b1 / 4 < 64 := by omega
    have h2 : b1 % 4 * 16 < 64 := by omega
    have hz : b1 % 4 * 16 % 16 = 0 := by omega
    simp only [base64E, base64D, b64Val_b64Char _ h1, b64Val_b64Char _ h2]
    simp [hz]
    omega
  | case3 b1 b2 =>
    have hb1 : b1 < 256 := h b1 (by simp)
    have hb2 : b2 < 256 := h b2 (by simp)
    have h1 : b1 / 4 < 64 := by omega
    have h2 : b1 % 4 * 16 + b2 / 16 < 64 := by omega
    have h3 : b2 % 16 * 4 < 64 := by omega
    have hz : b2 % 16 * 4 % 4 = 0 := by omega
    simp only [base64E, base64D, b64Val_b64Char _ h1, b64Val_b64Char _ h2]
    rw [if_neg (b64Char_ne_61 _ h3)]
    simp only [b64Val_b64Char _ h3]
    simp [hz]
    constructor
    · omega
    · omega
  | case4 b1 b2 b3 rest ih =>
    have hb1 : b1 < 256 := h b1 (by simp)
    have hb2 : b2 < 256 := h b2 (by simp)
    have hb3 : b3 < 256 := h b3 (by simp)
    have hrest : bytesWF rest := fun x hx => h x (by simp [hx])
    have h1 : b1 / 4 < 64 := by omega
    have h2 : b1 % 4 * 16 + b2 / 16 < 64 := by omega
    have h3 : b2 % 16 * 4 + b3 / 64 < 64 := by omega
    have h4 : b3 % 64 < 64 := by omega
    simp only [base64E, base64D, b64Val_b64Char _ h1, b64Val_b64Char _ h2]
    rw [if_neg (b64Char_ne_61 _ h3)]
    simp only [b64Val_b64Char _ h3]
    rw [if_neg (b64Char_ne_61 _ h4)]
    simp only [b64Val_b64Char _ h4, ih hrest, Option.map_some]
    refine congrArg some ?_
    refine congrArg₂ List.cons (by omega) ?_
    refine congrArg₂ List.cons (by omega) ?_
    exact congrArg₂ List.cons (by omega) rfl

/-- If every input byte is at most `z` (122) and none is `?` (63), the
base64 encoding never contains the `/` character.  This is the crucial
fact behind the file-path round trip: serde_qs query strings satisfy the
hypothesis, so splitting the cache path on `/` leaves the key segment
intact. -/
theorem base64E_no_slash (s : Str) (h : ∀ b ∈ s, b ≤ 122 ∧ b ≠ 63) :
    47 ∉ base64E s := by
  have hchar : ∀ v, v < 64 → v ≠ 63 → b64Char v ≠ 47 := by decide
  induction s using base64E.induct with
  | case1 => simp [base64E]
  | case2 b1 =>
    have hb1 := h b1 (by simp)
    intro hmem
    simp only [base64E, List.mem_cons, List.not_mem_nil, or_false] at hmem
    rcases hmem with hc | hc | hc | hc
    · exact hchar _ (by omega) (by omega) hc.symm
    · exact hchar _ (by omega) (by omega) hc.symm
    · omega
    · omega
  | case3 b1 b2 =>
    have hb1 := h b1 (by simp)
    have hb2 := h b2 (by simp)
    intro hmem
    simp only [base64E, List.mem_cons, List.not_mem_nil, or_false] at hmem
    rcases hmem with hc | hc | hc | hc
    · exact hchar _ (by omega) (by omega) hc.symm
    · exact hchar _ (by omega) (by omega) hc.symm
    · exact hchar _ (by omega) (by omega) hc.symm
    · omega
  | case4 b1 b2 b3 rest ih =>
    have hb1 := h b1 (by simp)
    have hb2 := h b2 (by simp)
    have hb3 := h b3 (by simp)
    have hrest : ∀ b ∈ rest, b ≤ 122 ∧ b ≠ 63 := fun x hx => h x (by simp [hx])
    intro hmem
    simp only [base64E, List.mem_cons] at hmem
    rcases hmem with hc | hc | hc | hc | hc
    · exact hchar _ (by omega) (by omega) hc.symm
    · exact hchar _ (by omega) (by omega) hc.symm
    · exact hchar _ (by omega) (by omega) hc.symm
    · exact hchar _ (by omega) (by omega) hc.symm
    · exact ih hrest hc

/-- The encoding of a nonempty string is nonempty. -/
theorem base64E_ne_nil (s : Str) (hs : s ≠ []) : base64E s ≠ [] := by
  rcases s with _ | ⟨b1, rest⟩
  · exact absurd rfl hs
  · rcases rest with _ | ⟨b2, rest2⟩
    · simp [base64E]
    · rcases rest2 with _ | ⟨b3, rest3⟩
      · simp [base64E]
      · simp [base64E]

/-- A pure-ASCII byte sequence is valid UTF-8. -/
theorem utf8Valid_ascii (s : Str) (h : ∀ b ∈ s, b < 128) :
    utf8Valid s = true := by
  have key : ∀ fuel (t : Str), (∀ b ∈ t, b < 128) → t.length ≤ fuel →
      utf8ValidAux fuel t = true := by
    intro fuel
    induction fuel with
    | zero =>
      intro t _ hlen
      have ht : t = [] := List.eq_nil_of_length_eq_zero (by omega)
      simp [ht, utf8ValidAux]
    | succ fuel ih =>
      intro t ht hlen
      rcases t with _ | ⟨b, rest⟩
      · rfl
      · have hb : b < 128 := ht b (List.mem_cons_self b rest)
        have hrest : ∀ x ∈ rest, x < 128 :=
          fun x hx => ht x (List.mem_cons_of_mem b hx)
        have hlen2 : rest.length ≤ fuel := by
          simp only [List.length_cons] at hlen; omega
        simp [utf8ValidAux, hb, ih rest hrest hlen2]
  exact key s.length s h le_rfl

/-! ## Round trip of the wire codec -/

/-- Strings free of `%` and `+` percent-decode to themselves. -/
theorem percentDecode_id (s : Str) (h : ∀ b ∈ s, b ≠ 37 ∧ b ≠ 43) :
    percentDecode s = some s := by
  induction s with
  | nil => rfl
  | cons b rest ih =>
    have hb := h b (List.mem_cons_self b rest)
    have hrest : ∀ x ∈ rest, x ≠ 37 ∧ x ≠ 43 :=
      fun x hx => h x (List.mem_cons_of_mem b hx)
    rw [percentDecode_plain b rest hb.1 hb.2, ih hrest]
    rfl

/-- Digit strings percent-decode to themselves. -/
theorem percentDecode_natDec (n : Nat) :
    percentDecode (natDec n) = some (natDec n) :=
  percentDecode_id _ (fun b hb => by have := natDec_digits n b hb; omega)

theorem parseU32_natDec (n : Nat) (h : n < 2 ^ 32) :
    parseU32 (natDec n) = some n := by
  have h' : n < 4294967296 := by omega
  simp [parseU32, parseDigits_natDec, h']

theorem parseU8_natDec (n : Nat) (h : n < 256) :
    parseU8 (natDec n) = some n := by
  simp [parseU8, parseDigits_natDec, h]

theorem intercalate_cons2 (sep : Nat) (c d : Str) (rest : List Str) :
    List.intercalate [sep] (c :: d :: rest) =
      c ++ sep :: List.intercalate [sep] (d :: rest) := by
  simp [List.intercalate, List.intersperse]

/-- Every byte of an intercalation is the separator or comes from a chunk. -/
theorem mem_intercalate_cases (sep : Nat) (chunks : List Str) (b : Nat)
    (hb : b ∈ List.intercalate [sep] chunks) :
    b = sep ∨ ∃ c ∈ chunks, b ∈ c := by
  induction chunks with
  | nil => simp [List.intercalate] at hb
  | cons c rest ih =>
    rcases rest with _ | ⟨d, ts⟩
    · simp [List.intercalate] at hb
      exact Or.inr ⟨c, by simp, hb⟩
    · rw [intercalate_cons2] at hb
      rcases List.mem_append.mp hb with h | h
      · exact Or.inr ⟨c, by simp, h⟩
      · rcases List.mem_cons.mp h with h | h
        · exact Or.inl h
        · rcases ih h with h | ⟨e, he, hbe⟩
          · exact Or.inl h
          · exact Or.inr ⟨e, List.mem_cons_of_mem c he, hbe⟩

/-- Keys and values serde_qs emits for a request: keys are fixed ASCII
names free of all delimiters, values (percent-encoded source or decimal
numerals) are ASCII free of `?`, `&`, `/`. -/
theorem qsRawPairs_OK (r : CachedImage) (hsrc : bytesWF r.src) :
    ∀ p ∈ qsRawPairs r,
      (∀ b ∈ p.1, b ≤ 122 ∧ b ≠ 63 ∧ b ≠ 38 ∧ b ≠ 61 ∧ b ≠ 47) ∧
      (∀ b ∈ p.2, b ≤ 122 ∧ b ≠ 63 ∧ b ≠ 38 ∧ b ≠ 47) := by
  have hpe : ∀ b ∈ percentEncode r.src, b ≤ 122 ∧ b ≠ 63 ∧ b ≠ 38 ∧ b ≠ 47 :=
    fun b hb => by have := percentEncode_safe r.src hsrc b hb; tauto
  have hnd : ∀ n, ∀ b ∈ natDec n, b ≤ 122 ∧ b ≠ 63 ∧ b ≠ 38 ∧ b ≠ 47 :=
    fun n b hb => by have := natDec_digits n b hb; omega
  have k0 : ∀ b ∈ ascii "src", b ≤ 122 ∧ b ≠ 63 ∧ b ≠ 38 ∧ b ≠ 61 ∧ b ≠ 47 := by
    decide
  intro p hp
  cases hopt : r.option with
  | resize z =>
    have k1 : ∀ b ∈ ascii "option[r][w]",
        b ≤ 122 ∧ b ≠ 63 ∧ b ≠ 38 ∧ b ≠ 61 ∧ b ≠ 47 := by decide
    have k2 : ∀ b ∈ ascii "option[r][h]",
        b ≤ 122 ∧ b ≠ 63 ∧ b ≠ 38 ∧ b ≠ 61 ∧ b ≠ 47 := by decide
    have k3 : ∀ b ∈ ascii "option[r][q]",
        b ≤ 122 ∧ b ≠ 63 ∧ b ≠ 38 ∧ b ≠ 61 ∧ b ≠ 47 := by decide
    simp only [qsRawPairs, hopt, List.mem_cons, List.not_mem_nil, or_false] at hp
    rcases hp with hp | hp | hp | hp <;> subst hp
    · exact ⟨k0, hpe⟩
    · exact ⟨k1, hnd _⟩
    · exact ⟨k2, hnd _⟩
    · exact ⟨k3, hnd _⟩
  | blur z =>
    have k1 : ∀ b ∈ ascii "option[b][w]",
        b ≤ 122 ∧ b ≠ 63 ∧ b ≠ 38 ∧ b ≠ 61 ∧ b ≠ 47 := by decide
    have k2 : ∀ b ∈ ascii "option[b][h]",
        b ≤ 122 ∧ b ≠ 63 ∧ b ≠ 38 ∧ b ≠ 61 ∧ b ≠ 47 := by decide
    have k3 : ∀ b ∈ ascii "option[b][sw]",
        b ≤ 122 ∧ b ≠ 63 ∧ b ≠ 38 ∧ b ≠ 61 ∧ b ≠ 47 := by decide
    have k4 : ∀ b ∈ ascii "option[b][sh]",
        b ≤ 122 ∧ b ≠ 63 ∧ b ≠ 38 ∧ b ≠ 61 ∧ b ≠ 47 := by decide
    have k5 : ∀ b ∈ ascii "option[b][s]",
        b ≤ 122 ∧ b ≠ 63 ∧ b ≠ 38 ∧ b ≠ 61 ∧ b ≠ 47 := by decide
    simp only [qsRawPairs, hopt, List.mem_cons, List.not_mem_nil, or_false] at hp
    rcases hp with hp | hp | hp | hp | hp | hp <;> subst hp
    · exact ⟨k0, hpe⟩
    · exact ⟨k1, hnd _⟩
    · exact ⟨k2, hnd _⟩
    · exact ⟨k3, hnd _⟩
    · exact ⟨k4, hnd _⟩
    · exact ⟨k5, hnd _⟩

/-- Splitting the encoded query on `&` recovers the `key=value` chunks. -/
theorem splitByte_qsEncode (r : CachedImage) (hsrc : bytesWF r.src) :
    splitByte 38 (qsEncode r) =
      (qsRawPairs r).map (fun p => p.1 ++ 61 :: p.2) := by
  apply splitByte_intercalate
  · intro chunk hchunk
    rcases List.mem_map.mp hchunk with ⟨p, hp, hchunkEq⟩
    have hOK := qsRawPairs_OK r hsrc p hp
    subst hchunkEq
    intro hmem
    rcases List.mem_append.mp hmem with h | h
    · exact (hOK.1 38 h).2.2.1 rfl
    · rcases List.mem_cons.mp h with h | h
      · omega
      · exact (hOK.2 38 h).2.2.1 rfl
  · cases hopt : r.option <;> simp [qsRawPairs, hopt]

/-- Splitting each chunk at the first `=` recovers the raw pairs. -/
theorem splitPairs_qsEncode (r : CachedImage) (hsrc : bytesWF r.src) :
    (splitByte 38 (qsEncode r)).map (splitFirst 61) = qsRawPairs r := by
  rw [splitByte_qsEncode r hsrc, List.map_map]
  have : ∀ p ∈ qsRawPairs r, splitFirst 61 (p.1 ++ 61 :: p.2) = p := by
    intro p hp
    have hOK := qsRawPairs_OK r hsrc p hp
    have h61 : (61:Nat) ∉ p.1 := fun hmem => (hOK.1 61 hmem).2.2.2.1 rfl
    rw [splitFirst_append 61 p.1 p.2 h61]
  calc ((qsRawPairs r).map (splitFirst 61 ∘ fun p => p.1 ++ 61 :: p.2))
      = (qsRawPairs r).map id := List.map_congr_left (fun p hp => this p hp)
    _ = qsRawPairs r := List.map_id _

/-- serde_qs parsing inverts serde_qs serialization on well-formed
requests. -/
theorem qsParse_qsEncode (r : CachedImage) (hwf : r.wf) :
    qsParse (qsEncode r) = some r := by
  obtain ⟨hsrc, hutf, _, _, _, hranges⟩ := hwf
  have hpairs := splitPairs_qsEncode r hsrc
  obtain ⟨src, opt⟩ := r
  simp only [qsParse]
  rw [hpairs]
  have pdSrc : percentDecode (percentEncode src) = some src :=
    percentDecode_percentEncode src hsrc
  cases opt with
  | resize z =>
    obtain ⟨w, h, q⟩ := z
    obtain ⟨hw, hh, hq⟩ := hranges
    have e1 : (ascii "src" == ascii "src") = true := by decide
    have e2 : (ascii "src" == ascii "option[r][w]") = false := by decide
    have e3 : (ascii "option[r][w]" == ascii "option[r][w]") = true := by decide
    have e4 : (ascii "src" == ascii "option[r][h]") = false := by decide
    have e5 : (ascii "option[r][w]" == ascii "option[r][h]") = false := by decide
    have e6 : (ascii "option[r][h]" == ascii "option[r][h]") = true := by decide
    have e7 : (ascii "src" == ascii "option[r][q]") = false := by decide
    have e8 : (ascii "option[r][w]" == ascii "option[r][q]") = false := by decide
    have e9 : (ascii "option[r][h]" == ascii "option[r][q]") = false := by decide
    have e10 : (ascii "option[r][q]" == ascii "option[r][q]") = true := by decide
    have s1 : listStartsWith (ascii "option[r]") (ascii "src") = false := by decide
    have s2 : listStartsWith (ascii "option[r]") (ascii "option[r][w]") = true := by
      decide
    have t1 : listStartsWith (ascii "option[b]") (ascii "src") = false := by decide
    have t2 : listStartsWith (ascii "option[b]") (ascii "option[r][w]") = false := by
      decide
    have t3 : listStartsWith (ascii "option[b]") (ascii "option[r][h]") = false := by
      decide
    have t4 : listStartsWith (ascii "option[b]") (ascii "option[r][q]") = false := by
      decide
    simp [qsRawPairs, List.find?, List.any, e1, e2, e3, e4, e5, e6, e7, e8, e9, e10,
      s1, s2, t1, t2, t3, t4, pdSrc, hutf, parseResize, percentDecode_natDec,
      parseU32_natDec _ hw, parseU32_natDec _ hh, parseU8_natDec _ hq]
  | blur z =>
    obtain ⟨w, h, sw, sh, sg⟩ := z
    obtain ⟨hw, hh, hsw, hsh, hsg⟩ := hranges
    have e1 : (ascii "src" == ascii "src") = true := by decide
    have e2 : (ascii "src" == ascii "option[b][w]") = false := by decide
    have e3 : (ascii "option[b][w]" == ascii "option[b][w]") = true := by decide
    have e4 : (ascii "src" == ascii "option[b][h]") = false := by decide
    have e5 : (ascii "option[b][w]" == ascii "option[b][h]") = false := by decide
    have e6 : (ascii "option[b][h]" == ascii "option[b][h]") = true := by decide
    have e7 : (ascii "src" == ascii "option[b][sw]") = false := by decide
    have e8 : (ascii "option[b][w]" == ascii "option[b][sw]") = false := by decide
    have e9 : (ascii "option[b][h]" == ascii "option[b][sw]") = false := by decide
    have e10 : (ascii "option[b][sw]" == ascii "option[b][sw]") = true := by decide
    have e11 : (ascii "src" == ascii "option[b][sh]") = false := by decide
    have e12 : (ascii "option[b][w]" == ascii "option[b][sh]") = false := by decide
    have e13 : (ascii "option[b][h]" == ascii "option[b][sh]") = false := by decide
    have e14 : (ascii "option[b][sw]" == ascii "option[b][sh]") = false := by decide
    have e15 : (ascii "option[b][sh]" == ascii "option[b][sh]") = true := by decide
    have e16 : (ascii "src" == ascii "option[b][s]") = false := by decide
    have e17 : (ascii "option[b][w]" == ascii "option[b][s]") = false := by decide
    have e18 : (ascii "option[b][h]" == ascii "option[b][s]") = false := by decide
    have e19 : (ascii "option[b][sw]" == ascii "option[b][s]") = false := by decide
    have e20 : (ascii "option[b][sh]" == ascii "option[b][s]") = false := by decide
    have e21 : (ascii "option[b][s]" == ascii "option[b][s]") = true := by decide
    have s1 : listStartsWith (ascii "option[b]") (ascii "src") = false := by decide
    have s2 : listStartsWith (ascii "option[b]") (ascii "option[b][w]") = true := by
      decide
    have t1 : listStartsWith (ascii "option[r]") (ascii "src") = false := by decide
    have t2 : listStartsWith (ascii "option[r]") (ascii "option[b][w]") = false := by
      decide
    have t3 : listStartsWith (ascii "option[r]") (ascii "option[b][h]") = false := by
      decide
    have t4 : listStartsWith (ascii "option[r]") (ascii "option[b][sw]") = false := by
      decide
    have t5 : listStartsWith (ascii "option[r]") (ascii "option[b][sh]") = false := by
      decide
    have t6 : listStartsWith (ascii "option[r]") (ascii "option[b][s]") = false := by
      decide
    simp [qsRawPairs, List.find?, List.any, e1, e2, e3, e4, e5, e6, e7, e8, e9, e10,
      e11, e12, e13, e14, e15, e16, e17, e18, e19, e20, e21,
      s1, s2, t1, t2, t3, t4, t5, t6, pdSrc, hutf, parseBlur, percentDecode_natDec,
      parseU32_natDec _ hw, parseU32_natDec _ hh, parseU32_natDec _ hsw,
      parseU32_natDec _ hsh, parseU8_natDec _ hsg]

/-- Every byte of the encoded query is at most `z` and is not `?`:
the query survives both the `?`-split of the URL decoder and (through
base64) the `/`-split of the path decoder. -/
theorem qsEncode_safe (r : CachedImage) (hsrc : bytesWF r.src) :
    ∀ b ∈ qsEncode r, b ≤ 122 ∧ b ≠ 63 := by
  intro b hb
  rcases mem_intercalate_cases 38 _ b hb with h | ⟨c, hc, hbc⟩
  · omega
  · rcases List.mem_map.mp hc with ⟨p, hp, hcEq⟩
    have hOK := qsRawPairs_OK r hsrc p hp
    subst hcEq
    rcases List.mem_append.mp hbc with h | h
    · have := hOK.1 b h; omega
    · rcases List.mem_cons.mp h with h | h
      · omega
      · have := hOK.2 b h; omega

/-- The encoded query is nonempty. -/
theorem qsEncode_ne_nil (r : CachedImage) : qsEncode r ≠ [] := by
  cases hopt : r.option with
  | resize z =>
    simp [qsEncode, qsRawPairs, hopt, intercalate_cons2]
  | blur z =>
    simp [qsEncode, qsRawPairs, hopt, intercalate_cons2]

/-- Splitting a string with a separator appended in the middle yields at
least two chunks. -/
theorem splitByte_append_two (c : Nat) (xs ys : Str) :
    2 ≤ (splitByte c (xs ++ c :: ys)).length := by
  induction xs with
  | nil =>
    have hne := splitByte_ne_nil c ys
    rcases hsp : splitByte c ys with _ | ⟨s0, ss⟩
    · exact absurd hsp hne
    · simp [splitByte, hsp]
  | cons b rest ih =>
    by_cases hb : b = c
    · have hne := splitByte_ne_nil c (rest ++ c :: ys)
      rcases hsp : splitByte c (rest ++ c :: ys) with _ | ⟨s0, ss⟩
      · exact absurd hsp hne
      · simp [splitByte, hb, hsp]
    · rcases hsp : splitByte c (rest ++ c :: ys) with _ | ⟨s0, ss⟩
      · exact absurd hsp (splitByte_ne_nil c _)
      · have hlen := ih
        rw [hsp] at hlen
        simp only [List.length_cons] at hlen
        simp [splitByte, hb, hsp]
        omega

/-- The last chunk of a split only depends on the part after the last
separator. -/
theorem splitByte_append_getLast (c : Nat) (xs ys : Str) :
    (splitByte c (xs ++ c :: ys)).getLast? = (splitByte c ys).getLast? := by
  induction xs with
  | nil =>
    have hne := splitByte_ne_nil c ys
    rcases hsp : splitByte c ys with _ | ⟨s0, ss⟩
    · exact absurd hsp hne
    · simp [splitByte, hsp]
  | cons b rest ih =>
    by_cases hb : b = c
    · have hne := splitByte_ne_nil c (rest ++ c :: ys)
      rcases hsp : splitByte c (rest ++ c :: ys) with _ | ⟨s0, ss⟩
      · exact absurd hsp hne
      · rw [← ih, hsp]
        simp [splitByte, hb, hsp]
    · rcases hsp : splitByte c (rest ++ c :: ys) with _ | ⟨s0, ss⟩
      · exact absurd hsp (splitByte_ne_nil c _)
      · have hlen := splitByte_append_two c rest ys
        rw [hsp] at hlen
        simp only [List.length_cons] at hlen
        rcases ss with _ | ⟨s1, ss2⟩
        · simp at hlen
        · rw [← ih, hsp]
          simp [splitByte, hb, hsp, List.getLast?_cons_cons]

/-- Decoding the URL form recovers the request: the codec wire round
trip, for any handler path. -/
theorem fromUrlEncoded_getUrlEncoded (handler : Str) (r : CachedImage)
    (hwf : r.wf) : fromUrlEncoded (getUrlEncoded handler r) = some r := by
  have hsrc : bytesWF r.src := hwf.1
  have hsafe := qsEncode_safe r hsrc
  have h63 : (63:Nat) ∉ qsEncode r := fun hmem => (hsafe 63 hmem).2 rfl
  have hsplit : splitByte 63 (getUrlEncoded handler r) =
      splitByte 63 (handler ++ 63 :: qsEncode r) := rfl
  have hlast : (splitByte 63 (getUrlEncoded handler r)).getLast? =
      some (qsEncode r) := by
    rw [hsplit, splitByte_append_getLast, splitByte_not_mem 63 _ h63]
    rfl
  have hfilter : (splitByte 63 (getUrlEncoded handler r)).filter
      (fun s => !(s == [63])) = splitByte 63 (getUrlEncoded handler r) := by
    apply List.filter_eq_self.mpr
    intro chunk hchunk
    have hnot := splitByte_chunks_not_mem 63 _ chunk hchunk
    simp only [Bool.not_eq_eq_eq_not, Bool.not_true, beq_eq_false_iff_ne, ne_eq]
    intro hEq
    subst hEq
    exact hnot (by simp)
  unfold fromUrlEncoded
  rw [hfilter, hlast]
  exact qsParse_qsEncode r hwf

/-! ## Structure of the derived cache path -/

/-- An element selected by `getLast?` is a member of the list. -/
theorem getLast?_mem_self {α : Type} (l : List α) (a : α)
    (h : l.getLast? = some a) : a ∈ l := by
  rcases List.mem_getLast?_eq_getLast (show a ∈ l.getLast? from h) with ⟨hne, hEq⟩
  rw [hEq]
  exact List.getLast_mem hne

/-- The head surviving a `dropWhile` fails the predicate. -/
theorem head?_dropWhile_not {α : Type} (p : α → Bool) (l : List α) (x : α)
    (h : (l.dropWhile p).head? = some x) : p x = false := by
  induction l with
  | nil => simp [List.dropWhile] at h
  | cons b rest ih =>
    by_cases hp : p b
    · rw [List.dropWhile_cons_of_pos hp] at h
      exact ih h
    · rw [List.dropWhile_cons_of_neg hp] at h
      simp only [List.head?_cons, Option.some.injEq] at h
      rw [← h]
      exact Bool.of_not_eq_true hp

/-- A string free of `/` is untouched by the trimming. -/
theorem trimSlashes_of_not_mem (s : Str) (h : (47:Nat) ∉ s) :
    trimSlashes s = s := by
  have h1 : trimStartSlash s = s := by
    unfold trimStartSlash
    rcases s with _ | ⟨b, rest⟩
    · rfl
    · have hb : ¬(b = 47) :=
        fun hEq => h (hEq ▸ List.mem_cons_self b rest)
      simp [List.dropWhile_cons, hb]
  unfold trimSlashes
  rw [h1]
  apply List.rdropWhile_eq_self_iff.mpr
  intro hne hp
  simp only [decide_eq_true_eq] at hp
  exact h (hp ▸ List.getLast_mem hne)

/-- The last byte of a trimmed nonempty string is not `/`. -/
theorem trimSlashes_getLast_ne (s : Str) (x : Nat)
    (h : (trimSlashes s).getLast? = some x) : x ≠ 47 := by
  have hne : trimSlashes s ≠ [] := by
    intro hEq; rw [hEq] at h; simp at h
  have hne2 : List.rdropWhile (fun b => b = 47) (trimStartSlash s) ≠ [] := hne
  have hnp := List.rdropWhile_last_not (fun b => b = 47) (trimStartSlash s) hne2
  rcases List.mem_getLast?_eq_getLast (show x ∈ (trimSlashes s).getLast? from h)
    with ⟨hne3, hEq⟩
  intro hx
  apply hnp
  simp only [decide_eq_true_eq]
  have : (trimSlashes s).getLast hne3 =
      (List.rdropWhile (fun b => b = 47) (trimStartSlash s)).getLast hne2 := by
    congr
  rw [← this, ← hEq]
  exact hx

/-- The first byte of a trimmed nonempty string is not `/`. -/
theorem trimSlashes_head_ne (s : Str) (x : Nat)
    (h : (trimSlashes s).head? = some x) : x ≠ 47 := by
  have hpre : trimSlashes s <+: trimStartSlash s :=
    List.rdropWhile_prefix _ _
  rcases hpre with ⟨t, ht⟩
  have hne : trimSlashes s ≠ [] := by
    intro hEq; rw [hEq] at h; simp at h
  have hhead : (trimStartSlash s).head? = some x := by
    rw [← ht]
    rcases hsp : trimSlashes s with _ | ⟨b, rest⟩
    · exact absurd hsp hne
    · rw [hsp] at h
      simp only [List.head?_cons, Option.some.injEq] at h
      simp [h]
  unfold trimStartSlash at hhead
  have := head?_dropWhile_not (fun b => decide (b = 47)) s x hhead
  simpa using this

/-- The final chunk of splitting a string that does not end in the
separator is nonempty. -/
theorem splitByte_getLast_ne_nil (c : Nat) (s : Str) :
    s ≠ [] → (∀ x, s.getLast? = some x → x ≠ c) →
    ∀ ch, (splitByte c s).getLast? = some ch → ch ≠ [] := by
  induction s with
  | nil => intro hs; exact absurd rfl hs
  | cons b rest ih =>
    intro _ hlast ch hch
    rcases Classical.em (rest = []) with hrest | hrest
    · subst hrest
      have hb : b ≠ c := hlast b (by simp)
      have hstep : splitByte c [b] = [[b]] := by simp [splitByte, hb]
      rw [hstep] at hch
      simp only [List.getLast?_singleton, Option.some.injEq] at hch
      simp [← hch]
    · have hlast2 : ∀ x, rest.getLast? = some x → x ≠ c := by
        intro x hx
        apply hlast
        rcases hr : rest with _ | ⟨r, rs⟩
        · exact absurd hr hrest
        · rw [← hr]
          have : (b :: rest).getLast? = rest.getLast? := by
            rw [hr, List.getLast?_cons_cons]
          rw [this]
          exact hx
      obtain ⟨s0, ss, hsp⟩ : ∃ s0 ss, splitByte c rest = s0 :: ss := by
        rcases hsp : splitByte c rest with _ | ⟨s0, ss⟩
        · exact absurd hsp (splitByte_ne_nil c rest)
        · exact ⟨s0, ss, rfl⟩
      by_cases hb : b = c
      · have hstep : splitByte c (b :: rest) = [] :: s0 :: ss := by
          simp [splitByte, hb, hsp]
        rw [hstep, List.getLast?_cons_cons] at hch
        exact ih hrest hlast2 ch (by rw [hsp]; exact hch)
      · have hstep : splitByte c (b :: rest) = (b :: s0) :: ss := by
          simp [splitByte, hb, hsp]
        rw [hstep] at hch
        rcases ss with _ | ⟨s1, ss2⟩
        · simp only [List.getLast?_singleton, Option.some.injEq] at hch
          simp [← hch]
        · rw [List.getLast?_cons_cons] at hch
          exact ih hrest hlast2 ch
            (by rw [hsp, List.getLast?_cons_cons]; exact hch)

/-- Members of `dropLast` are members of the list. -/
theorem mem_of_mem_dropLast_gen {α : Type} {l : List α} {x : α}
    (h : x ∈ l.dropLast) : x ∈ l := by
  rcases Classical.em (l = []) with hl | hl
  · subst hl; simp at h
  · rw [← List.dropLast_append_getLast hl]
    exact List.mem_append_left _ h

/-- `fnameSetExt` introduces no `/`. -/
theorem fnameSetExt_no_slash (fname ext : Str) (hf : (47:Nat) ∉ fname)
    (he : (47:Nat) ∉ ext) : (47:Nat) ∉ fnameSetExt fname ext := by
  unfold fnameSetExt
  intro hmem
  split at hmem
  · rcases List.mem_append.mp hmem with h | h
    · exact hf (List.take_subset _ _ h)
    · rcases List.mem_cons.mp h with h | h
      · omega
      · exact he h
  · rcases List.mem_append.mp hmem with h | h
    · exact hf h
    · rcases List.mem_cons.mp h with h | h
      · omega
      · exact he h

/-- The cache path of a well-formed request, split on `/`: the literal
`cache`, `image`, the full (untruncated) base64 key segment, then the
sanitized source whose final component got the extension treatment. -/
theorem getFilePath_chunks (r : CachedImage) (hwf : r.wf) :
    splitByte 47 (getFilePath r) =
      ascii "cache" :: ascii "image" :: base64E (qsEncode r) ::
      ((splitByte 47 (trimSlashes r.src)).dropLast ++
        [fnameSetExt (lastChunk (trimSlashes r.src)) (cacheExt r.option)]) := by
  obtain ⟨hsrc, hutf, htne, hdot1, hdot2, hranges⟩ := hwf
  set Q := qsEncode r with hQ
  set enc := base64E Q with henc
  set t := trimSlashes r.src with ht
  have hQsafe := qsEncode_safe r hsrc
  have hencNoSlash : (47:Nat) ∉ enc := base64E_no_slash Q hQsafe
  have hencNe : enc ≠ [] := base64E_ne_nil Q (qsEncode_ne_nil r)
  have hciTrim : trimSlashes (ascii "cache/image") = ascii "cache/image" := by
    decide
  have hciSplit : ascii "cache/image" = ascii "cache" ++ 47 :: ascii "image" := by
    decide
  -- the assembled relative path
  have hpath : pathFromSegments [ascii "cache/image", enc, r.src] =
      ascii "cache/image" ++ 47 :: (enc ++ 47 :: t) := by
    unfold pathFromSegments
    rw [show ([ascii "cache/image", enc, r.src].map trimSlashes) =
        [ascii "cache/image", enc, t] by
      simp [hciTrim, trimSlashes_of_not_mem enc hencNoSlash, ht]]
    rw [show ([ascii "cache/image", enc, t].filter (fun s => s ≠ [])) =
        [ascii "cache/image", enc, t] by
      have h1 : ascii "cache/image" ≠ [] := by decide
      simp [List.filter, h1, hencNe, htne]]
    rw [intercalate_cons2, intercalate_cons2]
    simp [List.intercalate, List.intersperse]
  -- chunks of the assembled path
  have hchunks : splitByte 47 (pathFromSegments [ascii "cache/image", enc, r.src]) =
      ascii "cache" :: ascii "image" :: enc :: splitByte 47 t := by
    rw [hpath, hciSplit]
    have h1 : (47:Nat) ∉ ascii "cache" := by decide
    have h2 : (47:Nat) ∉ ascii "image" := by decide
    rw [List.append_assoc, List.cons_append]
    rw [splitByte_append 47 _ _ h1]
    rw [splitByte_append 47 _ _ h2, splitByte_append 47 _ _ hencNoSlash]
  -- the last chunk of the path is the last chunk of the trimmed source
  obtain ⟨f, hf⟩ : ∃ f, (splitByte 47 t).getLast? = some f := by
    have := splitByte_ne_nil 47 t
    rcases hsp : splitByte 47 t with _ | ⟨s0, ss⟩
    · exact absurd hsp this
    · exact ⟨(s0 :: ss).getLast (by simp), List.getLast?_eq_getLast_of_ne_nil _⟩
  have hfLast : lastChunk t = f := by
    unfold lastChunk
    rw [hf]
    rfl
  have hfne : f ≠ [] := by
    apply splitByte_getLast_ne_nil 47 t htne _ f hf
    intro x hx
    exact trimSlashes_getLast_ne r.src x (ht ▸ hx)
  have hfne2 : f ≠ [46, 46] := hfLast ▸ hdot2
  rw [hfLast]
  -- setExtension rewrites only the last chunk
  have hsetext : getFilePath r =
      List.intercalate [47]
        ((ascii "cache" :: ascii "image" :: enc :: splitByte 47 t).dropLast ++
          [fnameSetExt f (cacheExt r.option)]) := by
    show setExtension
        (pathFromSegments [ascii "cache/image", base64E (qsEncode r), r.src])
        (cacheExt r.option) = _
    rw [← hQ, ← henc]
    unfold setExtension
    rw [hchunks]
    rw [show (ascii "cache" :: ascii "image" :: enc ::
        splitByte 47 t).getLast? = some f by
      rw [show (ascii "cache" :: ascii "image" :: enc :: splitByte 47 t) =
          [ascii "cache", ascii "image", enc] ++ splitByte 47 t by simp]
      rw [List.getLast?_append_of_ne_nil _ (splitByte_ne_nil 47 t), hf]]
    rw [← hchunks, hchunks]
    simp [hfne, hfne2]
  -- re-split the rewritten path
  obtain ⟨s0, ss, hsp⟩ : ∃ s0 ss, splitByte 47 t = s0 :: ss := by
    rcases hsp : splitByte 47 t with _ | ⟨s0, ss⟩
    · exact absurd hsp (splitByte_ne_nil 47 t)
    · exact ⟨s0, ss, rfl⟩
  have hdrop : (ascii "cache" :: ascii "image" :: enc :: splitByte 47 t).dropLast =
      ascii "cache" :: ascii "image" :: enc :: (splitByte 47 t).dropLast := by
    rw [hsp, List.dropLast_cons₂, List.dropLast_cons₂]
    rcases ss with _ | ⟨s1, ss2⟩
    · simp
    · rw [List.dropLast_cons₂]
  have harg : (ascii "cache" :: ascii "image" :: enc ::
        splitByte 47 t).dropLast ++ [fnameSetExt f (cacheExt r.option)] =
      ascii "cache" :: ascii "image" :: enc ::
        ((splitByte 47 t).dropLast ++ [fnameSetExt f (cacheExt r.option)]) := by
    rw [hdrop]
    simp
  rw [hsetext, harg]
  apply splitByte_intercalate
  · intro chunk hchunk
    rcases List.mem_cons.mp hchunk with h | h
    · subst h; decide
    rcases List.mem_cons.mp h with h | h
    · subst h; decide
    rcases List.mem_cons.mp h with h | h
    · subst h; exact hencNoSlash
    rcases List.mem_append.mp h with h | h
    · exact splitByte_chunks_not_mem 47 t chunk (mem_of_mem_dropLast_gen h)
    · rcases List.mem_cons.mp h with h | h
      · subst h
        apply fnameSetExt_no_slash
        · exact splitByte_chunks_not_mem 47 t f (getLast?_mem_self _ f hf)
        · cases r.option <;>
            first
            | (show (47:Nat) ∉ ascii "webp"; decide)
            | (show (47:Nat) ∉ ascii "svg"; decide)
      · simp at h
  · simp

/-- Decoding the cache path recovers the request: the codec path round
trip. -/
theorem fromFilePath_getFilePath (r : CachedImage) (hwf : r.wf) :
    fromFilePath (getFilePath r) = some r := by
  have hchunks := getFilePath_chunks r hwf
  unfold fromFilePath
  rw [hchunks]
  have hQsafe := qsEncode_safe r hwf.1
  have hQwf : bytesWF (qsEncode r) := fun b hb => by have := hQsafe b hb; omega
  have hQlt : ∀ b ∈ qsEncode r, b < 128 := fun b hb => by have := hQsafe b hb; omega
  have hdec : base64D (base64E (qsEncode r)) = some (qsEncode r) :=
    base64D_base64E _ hQwf
  have hutf : utf8Valid (qsEncode r) = true := utf8Valid_ascii _ hQlt
  have hc1 : base64D (ascii "cache") = none := by decide
  have hc2 : base64D (ascii "image") = none := by decide
  simp [findMap, hc1, hc2, hdec, hutf, qsParse_qsEncode r hwf]

/-! ## Store lemmas -/

/-- When the source decodes, the transform succeeds with a single direct
write of the artifact to the save path (after the mkdir), for both
operation variants. -/
theorem create_optimized_image_ok (lib : ImageLib) (config : CachedImageOption)
    (fs : Fs) (srcPath savePath : Str)
    (h : ∃ img, (fs srcPath).bind lib.decode = some img) :
    ∃ bytes, create_optimized_image lib config fs srcPath savePath =
      (fsWrite fs savePath bytes, .ok (),
        [.createDirAll (parentDir savePath), .write savePath bytes]) := by
  obtain ⟨img, himg⟩ := h
  obtain ⟨bytes0, hb, hd⟩ : ∃ bytes0, fs srcPath = some bytes0 ∧
      lib.decode bytes0 = some img := by
    rcases hfs : fs srcPath with _ | b
    · rw [hfs] at himg; simp at himg
    · rw [hfs] at himg; simp at himg; exact ⟨b, rfl, himg⟩
  cases config with
  | resize z =>
    refine ⟨lib.webpEncode (lib.resizeCatmull img z.width z.height) z.quality, ?_⟩
    unfold create_optimized_image
    rw [himg]
  | blur z =>
    refine ⟨blurSvg z.svg_width z.svg_height z.sigma
      (ascii "data:image/webp;base64," ++
        base64E (lib.webpEncode (lib.resizeNearest img z.width z.height) 80)), ?_⟩
    unfold create_optimized_image createImageBlur
    rw [hb]
    simp [hd]

/-- `create_image` on an existing artifact: immediate `Ok(false)`, no
events, filesystem untouched. -/
theorem create_image_exists (opt : ImageOptimizer) (lib : ImageLib) (fs : Fs)
    (r : CachedImage)
    (hex : (fs (pathFromSegments [opt.root_file_path, getFilePath r])).isSome) :
    opt.create_image lib fs r = (fs, .ok false, []) := by
  unfold ImageOptimizer.create_image
  rw [if_pos hex]

/-- `create_image` on a fresh artifact with a succeeding transform:
`Ok(true)`, the permit acquired and immediately dropped, then the
mkdir and the single write. -/
theorem create_image_new (opt : ImageOptimizer) (lib : ImageLib) (fs : Fs)
    (r : CachedImage)
    (hnew : fs (pathFromSegments [opt.root_file_path, getFilePath r]) = none)
    (hsrc : ∃ img,
      (fs (pathFromSegments [opt.root_file_path, r.src])).bind lib.decode =
        some img) :
    ∃ bytes, opt.create_image lib fs r =
      (fsWrite fs (pathFromSegments [opt.root_file_path, getFilePath r]) bytes,
       .ok true,
       [.semAcquire, .semRelease,
        .fsEvent (.createDirAll
          (parentDir (pathFromSegments [opt.root_file_path, getFilePath r]))),
        .fsEvent (.write (pathFromSegments [opt.root_file_path, getFilePath r])
          bytes)]) := by
  obtain ⟨bytes, hstep⟩ := create_optimized_image_ok lib r.option fs
    (pathFromSegments [opt.root_file_path, r.src])
    (pathFromSegments [opt.root_file_path, getFilePath r]) hsrc
  refine ⟨bytes, ?_⟩
  unfold ImageOptimizer.create_image
  rw [if_neg (by rw [hnew]; simp), hstep]
  rfl

/-- Heads of assembled paths are never `/` (the path is relative). -/
theorem pathFromSegments_head_ne (segs : List Str) (x : Nat)
    (h : (pathFromSegments segs).head? = some x) : x ≠ 47 := by
  unfold pathFromSegments at h
  rcases hL : ((segs.map trimSlashes).filter (fun s => s ≠ [])) with _ | ⟨l0, rest⟩
  · rw [hL] at h
    simp [List.intercalate] at h
  · have hl0mem : l0 ∈ (segs.map trimSlashes).filter (fun s => s ≠ []) := by
      rw [hL]; exact List.mem_cons_self _ _
    have hl0ne : l0 ≠ [] := by
      have := List.of_mem_filter hl0mem
      simpa using this
    obtain ⟨seg, _, hseg⟩ : ∃ seg ∈ segs, trimSlashes seg = l0 :=
      List.mem_map.mp (List.mem_of_mem_filter hl0mem)
    have hhead : l0.head? = some x := by
      rw [hL] at h
      rcases rest with _ | ⟨l1, rest2⟩
      · simpa [List.intercalate] using h
      · rw [intercalate_cons2] at h
        rcases hl : l0 with _ | ⟨b, t⟩
        · exact absurd hl hl0ne
        · rw [hl] at h
          simpa using h
    rw [← hseg] at hhead
    exact trimSlashes_head_ne seg x hhead

/-! ## The claims -/

/-- Claim C1: for every valid `TransformRequest` both codec round trips
hold — decoding the wire encoding returns the original value
(`from_url_encoded (get_url_encoded r) = Ok r`, for any handler path)
and decoding the filesystem path returns the original value
(`from_file_path (get_file_path r) = Some r`) — for all field values,
including sources containing `/` or `?` (the serde_qs layer
percent-encodes `?` and every non-ASCII byte, so the base64 key segment
can never contain `/` and survives the path split intact). -/
theorem C1_codec_round_trip (r : CachedImage) (handler : Str) (hwf : r.wf) :
    fromUrlEncoded (getUrlEncoded handler r) = some r ∧
    fromFilePath (getFilePath r) = some r :=
  ⟨fromUrlEncoded_getUrlEncoded handler r hwf, fromFilePath_getFilePath r hwf⟩

/-- Witness for C1 at the repository's own test vector (and a slashed,
query-charactered source). -/
theorem C1_codec_round_trip_witness :
    (rTest.wf ∧
      fromUrlEncoded (getUrlEncoded (ascii "/cache/image/test") rTest) =
        some rTest ∧
      fromFilePath (getFilePath rTest) = some rTest) ∧
    (CachedImage.wf ⟨ascii "/img dir/a?b.png", .resize ⟨1, 2, 3⟩⟩ ∧
      fromUrlEncoded (getUrlEncoded (ascii "/cache/image")
        ⟨ascii "/img dir/a?b.png", .resize ⟨1, 2, 3⟩⟩) =
          some ⟨ascii "/img dir/a?b.png", .resize ⟨1, 2, 3⟩⟩ ∧
      fromFilePath (getFilePath ⟨ascii "/img dir/a?b.png", .resize ⟨1, 2, 3⟩⟩) =
        some ⟨ascii "/img dir/a?b.png", .resize ⟨1, 2, 3⟩⟩) := by
  constructor
  · refine ⟨by decide, ?_, ?_⟩
    · exact (C1_codec_round_trip rTest (ascii "/cache/image/test") (by decide)).1
    · exact (C1_codec_round_trip rTest (ascii "/cache/image/test") (by decide)).2
  · refine ⟨by decide, ?_, ?_⟩
    · exact (C1_codec_round_trip _ (ascii "/cache/image") (by decide)).1
    · exact (C1_codec_round_trip _ (ascii "/cache/image") (by decide)).2

/-- Claim C2: `create_image` is idempotent — on a fresh key with a
readable source the first call creates the artifact and returns
`created = true`; the second call for the same request finds the file,
returns `created = false` immediately with an empty event trace (no
semaphore permit, no transform, no write), and leaves the filesystem —
in particular the artifact bytes — unchanged. -/
theorem C2_create_image_idempotent (opt : ImageOptimizer) (lib : ImageLib)
    (fs : Fs) (r : CachedImage)
    (hnew : fs (pathFromSegments [opt.root_file_path, getFilePath r]) = none)
    (hsrc : ∃ img,
      (fs (pathFromSegments [opt.root_file_path, r.src])).bind lib.decode =
        some img) :
    (opt.create_image lib fs r).2.1 = .ok true ∧
    ((opt.create_image lib fs r).1
        (pathFromSegments [opt.root_file_path, getFilePath r])).isSome ∧
    opt.create_image lib (opt.create_image lib fs r).1 r =
      ((opt.create_image lib fs r).1, .ok false, []) := by
  obtain ⟨bytes, h1⟩ := create_image_new opt lib fs r hnew hsrc
  rw [h1]
  refine ⟨rfl, ?_, ?_⟩
  · simp [fsWrite]
  · apply create_image_exists
    simp [fsWrite]

/-- Witness for C2: Scenario A's `cat.png` request against a root
holding the source. -/
theorem C2_create_image_idempotent_witness :
    (optDemo.create_image libUnit fsDemo rCat).2.1 = .ok true ∧
    ((optDemo.create_image libUnit fsDemo rCat).1
        (pathFromSegments [optDemo.root_file_path, getFilePath rCat])).isSome ∧
    optDemo.create_image libUnit (optDemo.create_image libUnit fsDemo rCat).1
        rCat =
      ((optDemo.create_image libUnit fsDemo rCat).1, .ok false, []) :=
  C2_create_image_idempotent optDemo libUnit fsDemo rCat (by decide) ⟨(), rfl⟩

/-- Claim C3 (code bug): the permit returned by `semaphore.acquire()` is
bound to `_`, which drops — and thereby releases — it immediately, so
the permit is not held while the transform runs.  With `parallelism = 1`
and two concurrent `create_image` calls on uncached keys the scheduler
reaches a state with two transforms running at once, refuting the
at-most-N bound the claim (and the constructor's own documentation)
asserts. -/
theorem C3_semaphore_not_held :
    SemReachable ⟨1, [.ready, .ready]⟩ ⟨1, [.transforming, .transforming]⟩ ∧
    1 < runningTransforms ⟨1, [.transforming, .transforming]⟩ ∧
    ¬ (∀ s, SemReachable ⟨1, [.ready, .ready]⟩ s → runningTransforms s ≤ 1) := by
  have hreach : SemReachable ⟨1, [.ready, .ready]⟩
      ⟨1, [.transforming, .transforming]⟩ := by
    apply Relation.ReflTransGen.head (SemStep.check 1 [.ready, .ready] 0 rfl)
    apply Relation.ReflTransGen.head
      (SemStep.acquire 1 [.checked, .ready] 0 rfl (by omega))
    apply Relation.ReflTransGen.head
      (SemStep.dropPermit 0 [.holding, .ready] 0 rfl)
    apply Relation.ReflTransGen.head (SemStep.spawn 1 [.released, .ready] 0 rfl)
    apply Relation.ReflTransGen.head
      (SemStep.check 1 [.transforming, .ready] 1 rfl)
    apply Relation.ReflTransGen.head
      (SemStep.acquire 1 [.transforming, .checked] 1 rfl (by omega))
    apply Relation.ReflTransGen.head
      (SemStep.dropPermit 0 [.transforming, .holding] 1 rfl)
    apply Relation.ReflTransGen.head
      (SemStep.spawn 1 [.transforming, .released] 1 rfl)
    exact Relation.ReflTransGen.refl
  refine ⟨hreach, by decide, fun hall => ?_⟩
  exact absurd (hall ⟨1, [.transforming, .transforming]⟩ hreach) (by decide)

/-- Claim C4 counterexample: a successful generation run writes the
artifact directly to the final path — the event trace holds one mkdir
and one write and contains no write-to-temporary-then-rename step, so
the claimed temp-location-then-move behaviour does not happen. -/
theorem C4_counterexample :
    (create_optimized_image libUnit (.resize ⟨100, 100, 75⟩) fsDemo
        (ascii "root/cat.png") (ascii "root/cache/cat.webp")).2.1 = .ok () ∧
    (create_optimized_image libUnit (.resize ⟨100, 100, 75⟩) fsDemo
        (ascii "root/cat.png") (ascii "root/cache/cat.webp")).2.2 =
      [.createDirAll (ascii "root/cache"),
       .write (ascii "root/cache/cat.webp") [42]] ∧
    ¬ ∃ tmp, tmp ≠ ascii "root/cache/cat.webp" ∧
        FsEvent.rename tmp (ascii "root/cache/cat.webp") ∈
          (create_optimized_image libUnit (.resize ⟨100, 100, 75⟩) fsDemo
            (ascii "root/cat.png") (ascii "root/cache/cat.webp")).2.2 := by
  have htr : (create_optimized_image libUnit (.resize ⟨100, 100, 75⟩) fsDemo
      (ascii "root/cat.png") (ascii "root/cache/cat.webp")).2.2 =
      [.createDirAll (ascii "root/cache"),
       .write (ascii "root/cache/cat.webp") [42]] := rfl
  refine ⟨rfl, htr, ?_⟩
  rintro ⟨tmp, _, hmem⟩
  rw [htr] at hmem
  simp at hmem

/-- Claim C4 (amended): generation computes the artifact fully in
memory; on transform failure it returns before touching the filesystem
(no events, filesystem unchanged — no partial file at the final path),
and on success it performs exactly one direct write of the complete
artifact to the final path after creating parent directories; there is
no temporary location or rename step. -/
theorem C4_atomic_write (lib : ImageLib) (config : CachedImageOption) (fs : Fs)
    (srcPath savePath : Str) :
    (∀ e, (create_optimized_image lib config fs srcPath savePath).2.1 =
        .error e →
      (create_optimized_image lib config fs srcPath savePath).1 = fs ∧
      (create_optimized_image lib config fs srcPath savePath).2.2 = []) ∧
    ((create_optimized_image lib config fs srcPath savePath).2.1 = .ok () →
      ∃ bytes,
        (create_optimized_image lib config fs srcPath savePath).1 =
          fsWrite fs savePath bytes ∧
        (create_optimized_image lib config fs srcPath savePath).2.2 =
          [.createDirAll (parentDir savePath), .write savePath bytes]) := by
  cases config with
  | resize z =>
    rcases hdec : (fs srcPath).bind lib.decode with _ | img
    · have hval : create_optimized_image lib (.resize z) fs srcPath savePath =
          (fs, .error .imageError, []) := by
        unfold create_optimized_image
        rw [hdec]
      rw [hval]
      exact ⟨fun e _ => ⟨rfl, rfl⟩, fun h => Except.noConfusion h⟩
    · have hval : create_optimized_image lib (.resize z) fs srcPath savePath =
          (fsWrite fs savePath
            (lib.webpEncode (lib.resizeCatmull img z.width z.height) z.quality),
           .ok (),
           [.createDirAll (parentDir savePath),
            .write savePath
              (lib.webpEncode (lib.resizeCatmull img z.width z.height)
                z.quality)]) := by
        unfold create_optimized_image
        rw [hdec]
      rw [hval]
      refine ⟨fun e he => Except.noConfusion he, fun _ => ?_⟩
      exact ⟨lib.webpEncode (lib.resizeCatmull img z.width z.height) z.quality,
        rfl, rfl⟩
  | blur z =>
    rcases hblur : createImageBlur lib (fs srcPath) z with e | svg
    · have hval : create_optimized_image lib (.blur z) fs srcPath savePath =
          (fs, .error e, []) := by
        simp only [create_optimized_image]
        rw [hblur]
      rw [hval]
      exact ⟨fun e2 _ => ⟨rfl, rfl⟩, fun h => Except.noConfusion h⟩
    · have hval : create_optimized_image lib (.blur z) fs srcPath savePath =
          (fsWrite fs savePath svg, .ok (),
           [.createDirAll (parentDir savePath), .write savePath svg]) := by
        simp only [create_optimized_image]
        rw [hblur]
      rw [hval]
      refine ⟨fun e2 he => Except.noConfusion he, fun _ => ?_⟩
      exact ⟨svg, rfl, rfl⟩

/-- Witness for C4 at a failing transform (missing source file): the
run reports the error, writes nothing, and leaves the filesystem as it
was. -/
theorem C4_atomic_write_witness :
    (create_optimized_image libUnit (.resize ⟨100, 100, 75⟩) fsEmpty
        (ascii "s") (ascii "d")).1 = fsEmpty ∧
    (create_optimized_image libUnit (.resize ⟨100, 100, 75⟩) fsEmpty
        (ascii "s") (ascii "d")).2.2 = [] :=
  (C4_atomic_write libUnit (.resize ⟨100, 100, 75⟩) fsEmpty (ascii "s")
    (ascii "d")).1 .imageError rfl

set_option maxRecDepth 100000 in
/-- Claim C5 counterexample: for a 200-byte source name the derived
path's base64 key segment is longer than 255 bytes, yet `get_file_path`
returns the path with the segment present in full — it does not fail
with any `PathTooLong` error (no such failure exists in the code: the
function is total and only a source comment mentions the limit). -/
theorem C5_counterexample :
    255 < (base64E (qsEncode rLong)).length ∧
    (splitByte 47 (getFilePath rLong)).get? 2 = some (base64E (qsEncode rLong)) := by
  constructor
  · decide
  · rw [getFilePath_chunks rLong (by decide)]
    rfl

/-- Claim C5 (amended): `get_file_path` never fails and never truncates:
for every well-formed request the full base64 encoding of the wire key
appears as the third path segment, regardless of its length. -/
theorem C5_no_length_check (r : CachedImage) (hwf : r.wf) :
    (splitByte 47 (getFilePath r)).get? 2 = some (base64E (qsEncode r)) := by
  rw [getFilePath_chunks r hwf]
  rfl

set_option maxRecDepth 100000 in
/-- Witness for C5 at the over-long request. -/
theorem C5_no_length_check_witness :
    rLong.wf ∧
    (splitByte 47 (getFilePath rLong)).get? 2 = some (base64E (qsEncode rLong)) ∧
    255 < (base64E (qsEncode rLong)).length :=
  ⟨by decide, C5_no_length_check rLong (by decide), by decide⟩

set_option maxRecDepth 100000 in
/-- Claim C6 counterexample: for source `cat.png` with a Resize
operation the final path segment is `cat.webp`, not the claimed
`cat.png.webp` — `set_extension` replaces the source's `.png` extension
instead of appending. -/
theorem C6_counterexample :
    (splitByte 47 (getFilePath rCat)).getLast? = some (ascii "cat.webp") ∧
    ascii "cat.webp" ≠ ascii "cat.png.webp" := by
  constructor
  · rw [getFilePath_chunks rCat (by decide)]
    rw [show (ascii "cache" :: ascii "image" :: base64E (qsEncode rCat) ::
        ((splitByte 47 (trimSlashes rCat.src)).dropLast ++
          [fnameSetExt (lastChunk (trimSlashes rCat.src)) (cacheExt rCat.option)])) =
        (ascii "cache" :: ascii "image" :: base64E (qsEncode rCat) ::
          (splitByte 47 (trimSlashes rCat.src)).dropLast) ++
        [fnameSetExt (lastChunk (trimSlashes rCat.src)) (cacheExt rCat.option)] by
      simp]
    rw [List.getLast?_concat]
    decide
  · decide

/-- Claim C6 (amended): the artifact path keeps the base64 key segment
and the sanitized source name, but the format extension replaces the
source's extension rather than being appended: for `cat.png` the final
segment is `cat.webp` under Resize and `cat.svg` under Blur. -/
theorem C6_extension_replaced (z : Resize)
    (hz : (CachedImageOption.resize z).rangesOK) (z2 : Blur)
    (hz2 : (CachedImageOption.blur z2).rangesOK) :
    (splitByte 47 (getFilePath ⟨ascii "cat.png", .resize z⟩)).getLast? =
      some (ascii "cat.webp") ∧
    (splitByte 47 (getFilePath ⟨ascii "cat.png", .blur z2⟩)).getLast? =
      some (ascii "cat.svg") := by
  constructor
  · have hwfR : CachedImage.wf ⟨ascii "cat.png", .resize z⟩ :=
      ⟨show bytesWF (ascii "cat.png") by decide,
       show utf8Valid (ascii "cat.png") = true by decide,
       show trimSlashes (ascii "cat.png") ≠ [] by decide,
       show lastChunk (trimSlashes (ascii "cat.png")) ≠ [46] by decide,
       show lastChunk (trimSlashes (ascii "cat.png")) ≠ [46, 46] by decide, hz⟩
    rw [getFilePath_chunks ⟨ascii "cat.png", .resize z⟩ hwfR]
    rw [show (ascii "cache" :: ascii "image" ::
        base64E (qsEncode ⟨ascii "cat.png", .resize z⟩) ::
        ((splitByte 47 (trimSlashes (ascii "cat.png"))).dropLast ++
          [fnameSetExt (lastChunk (trimSlashes (ascii "cat.png")))
            (cacheExt (.resize z))])) =
        (ascii "cache" :: ascii "image" ::
          base64E (qsEncode ⟨ascii "cat.png", .resize z⟩) ::
          (splitByte 47 (trimSlashes (ascii "cat.png"))).dropLast) ++
        [fnameSetExt (lastChunk (trimSlashes (ascii "cat.png")))
          (cacheExt (.resize z))] by simp]
    rw [List.getLast?_concat]
    have hext : cacheExt (CachedImageOption.resize z) = ascii "webp" := rfl
    rw [hext]
    decide
  · have hwfB : CachedImage.wf ⟨ascii "cat.png", .blur z2⟩ :=
      ⟨show bytesWF (ascii "cat.png") by decide,
       show utf8Valid (ascii "cat.png") = true by decide,
       show trimSlashes (ascii "cat.png") ≠ [] by decide,
       show lastChunk (trimSlashes (ascii "cat.png")) ≠ [46] by decide,
       show lastChunk (trimSlashes (ascii "cat.png")) ≠ [46, 46] by decide, hz2⟩
    rw [getFilePath_chunks ⟨ascii "cat.png", .blur z2⟩ hwfB]
    rw [show (ascii "cache" :: ascii "image" ::
        base64E (qsEncode ⟨ascii "cat.png", .blur z2⟩) ::
        ((splitByte 47 (trimSlashes (ascii "cat.png"))).dropLast ++
          [fnameSetExt (lastChunk (trimSlashes (ascii "cat.png")))
            (cacheExt (.blur z2))])) =
        (ascii "cache" :: ascii "image" ::
          base64E (qsEncode ⟨ascii "cat.png", .blur z2⟩) ::
          (splitByte 47 (trimSlashes (ascii "cat.png"))).dropLast) ++
        [fnameSetExt (lastChunk (trimSlashes (ascii "cat.png")))
          (cacheExt (.blur z2))] by simp]
    rw [List.getLast?_concat]
    have hext : cacheExt (CachedImageOption.blur z2) = ascii "svg" := rfl
    rw [hext]
    decide

/-- Witness for C6 at the Scenario A and Scenario B parameters. -/
theorem C6_extension_replaced_witness :
    (splitByte 47 (getFilePath
        ⟨ascii "cat.png", .resize ⟨100, 100, 75⟩⟩)).getLast? =
      some (ascii "cat.webp") ∧
    (splitByte 47 (getFilePath
        ⟨ascii "cat.png", .blur ⟨20, 20, 500, 500, 15⟩⟩)).getLast? =
      some (ascii "cat.svg") :=
  C6_extension_replaced ⟨100, 100, 75⟩ (by decide) ⟨20, 20, 500, 500, 15⟩
    (by decide)

/-- Claim C7 counterexample: over the routes `/` and `/gallery` of the
scenario the discovery returns four entries with the shared image twice
— the source flattens the per-route collections and never deduplicates,
so the result is not a 3-element duplicate-free set. -/
theorem C7_counterexample :
    find_app_images_from_paths render7 [ascii "/", ascii "/gallery"] =
      [imgA, imgA, imgB, imgC] ∧
    ¬ ((find_app_images_from_paths render7
          [ascii "/", ascii "/gallery"]).length = 3 ∧
       (find_app_images_from_paths render7
          [ascii "/", ascii "/gallery"]).Nodup) := by
  constructor
  · decide
  · intro h
    rcases h with ⟨hlen, _⟩
    rw [show find_app_images_from_paths render7 [ascii "/", ascii "/gallery"] =
        [imgA, imgA, imgB, imgC] by decide] at hlen
    simp at hlen

/-- Claim C7 (amended): discovery runs one render pass per route and
returns the concatenation of the collected requests, preserving
duplicates: multiplicities add across routes, and the scenario yields
four entries with the shared request counted twice. -/
theorem C7_discovery_concat :
    (∀ (render : Str → List CachedImage) (paths : List Str) (r : CachedImage),
      (find_app_images_from_paths render paths).count r =
        ((paths.map (fun p =>
          (render (ascii "http://leptos.dev" ++ p)).count r)).sum)) ∧
    find_app_images_from_paths render7 [ascii "/", ascii "/gallery"] =
      [imgA, imgA, imgB, imgC] ∧
    (find_app_images_from_paths render7
        [ascii "/", ascii "/gallery"]).count imgA = 2 := by
  refine ⟨?_, by decide, by decide⟩
  intro render paths r
  unfold find_app_images_from_paths
  rw [List.count_flatten, List.map_map, List.map_map]
  rfl

/-- Claim C8: for every request URI whose query does not decode to a
valid request the handler answers 404 (never 500); a 500 occurs only
when decoding succeeded and the creation call itself failed. -/
theorem C8_handler_status
    (createFn : CachedImage → Except CreateImageError (Str × Bool))
    (uri : Str) :
    (fromUrlEncoded uri = none →
      image_cache_handler createFn uri = 404 ∧
      image_cache_handler createFn uri ≠ 500) ∧
    (image_cache_handler createFn uri = 500 →
      ∃ r e, fromUrlEncoded uri = some r ∧ createFn r = .error e) := by
  rcases hdec : fromUrlEncoded uri with _ | r
  · constructor
    · intro _
      constructor
      · simp [image_cache_handler, check_cache_image, hdec]
      · simp [image_cache_handler, check_cache_image, hdec]
    · intro h500
      exfalso
      simp [image_cache_handler, check_cache_image, hdec] at h500
  · constructor
    · intro h
      nomatch h
    · intro h500
      rcases hcf : createFn r with e | pc
      · exact ⟨r, e, rfl, hcf⟩
      · exfalso
        rcases pc with ⟨path, created⟩
        simp [image_cache_handler, check_cache_image, hdec, hcf] at h500

/-- Witness for C8 at the unparseable wire key `op=zzz`. -/
theorem C8_handler_status_witness :
    fromUrlEncoded (ascii "/cache/image?op=zzz") = none ∧
    image_cache_handler (fun _ => .ok ([], false))
      (ascii "/cache/image?op=zzz") = 404 :=
  ⟨by decide,
   ((C8_handler_status (fun _ => .ok ([], false))
      (ascii "/cache/image?op=zzz")).1 (by decide)).1⟩

/-- Claim C9: blur-placeholder generation is deterministic — two calls
of `create_image_blur` with the same source bytes and the same blur
parameters return byte-identical results, and a successful result is
exactly the SVG template around the base64 WebP payload computed from
the decoded source at the tiny raster size with the fixed quality 80
and the filter parameter `sigma`. -/
theorem C9_blur_deterministic (lib : ImageLib) (s1 s2 : Option Str)
    (b1 b2 : Blur) (hs : s1 = s2) (hb : b1 = b2) :
    createImageBlur lib s1 b1 = createImageBlur lib s2 b2 ∧
    (∀ bytes img, s1 = some bytes → lib.decode bytes = some img →
      createImageBlur lib s1 b1 =
        .ok (blurSvg b1.svg_width b1.svg_height b1.sigma
          (ascii "data:image/webp;base64," ++
            base64E (lib.webpEncode
              (lib.resizeNearest img b1.width b1.height) 80)))) := by
  subst hs
  subst hb
  refine ⟨rfl, ?_⟩
  intro bytes img hb1 hd
  rw [hb1]
  simp [createImageBlur, hd]

/-- Witness for C9 at concrete bytes and Scenario B's blur parameters. -/
theorem C9_blur_deterministic_witness :
    createImageBlur libUnit (some [7]) ⟨20, 20, 500, 500, 15⟩ =
      createImageBlur libUnit (some [7]) ⟨20, 20, 500, 500, 15⟩ :=
  (C9_blur_deterministic libUnit (some [7]) (some [7]) ⟨20, 20, 500, 500, 15⟩
    ⟨20, 20, 500, 500, 15⟩ rfl rfl).1

set_option maxRecDepth 100000 in
/-- Claim C10 counterexample: two sources differing only in a leading
slash trim to the same relative path and resolve to the same absolute
source path, yet their derived save paths differ — the base64 key
segment encodes the raw source string, so such sources do not resolve
to identical store paths. -/
theorem C10_counterexample :
    trimSlashes rCatSlash.src = trimSlashes rCat.src ∧
    absoluteSrcPath (ascii "root") rCatSlash =
      absoluteSrcPath (ascii "root") rCat ∧
    getFilePathFromRoot (ascii "root") rCatSlash ≠
      getFilePathFromRoot (ascii "root") rCat := by
  refine ⟨by decide, by decide, ?_⟩
  decide

/-- Claim C10 (amended): every path the store assembles is built by
trimming `/` from both ends of each segment and dropping empty ones, so
the result is always relative (it never begins with `/`); roots
differing only in leading or trailing slashes yield identical derived
paths, and sources so differing yield identical absolute source paths —
but not identical save paths, which embed the raw source in the base64
key segment. -/
theorem C10_relative_paths :
    (∀ (segs : List Str) (x : Nat),
      (pathFromSegments segs).head? = some x → x ≠ 47) ∧
    (∀ r1 r2 rel : Str, trimSlashes r1 = trimSlashes r2 →
      pathFromSegments [r1, rel] = pathFromSegments [r2, rel]) ∧
    (∀ root s1 s2 : Str, trimSlashes s1 = trimSlashes s2 →
      pathFromSegments [root, s1] = pathFromSegments [root, s2]) := by
  refine ⟨pathFromSegments_head_ne, ?_, ?_⟩
  · intro r1 r2 rel h
    unfold pathFromSegments
    simp [h]
  · intro root s1 s2 h
    unfold pathFromSegments
    simp [h]

/-- Witness for C10: a root with a leading slash resolves to the same
relative path as the plain root, and the assembled path is relative. -/
theorem C10_relative_paths_witness :
    pathFromSegments [ascii "/var/www", ascii "x.png"] =
      pathFromSegments [ascii "var/www", ascii "x.png"] ∧
    pathFromSegments [ascii "/var/www", ascii "x.png"] =
      ascii "var/www/x.png" :=
  ⟨(C10_relative_paths).2.1 (ascii "/var/www") (ascii "var/www")
      (ascii "x.png") (by decide),
   by decide⟩
